import Mathlib

/-
Shallow embedding of src/trains/utilities/check_updates.py.

The embedded code is:
  * class Version (regex grammar VERSION_PATTERN, __init__, __str__,
    _parse_letter_version, _parse_local_version, _cmpkey),
  * the comparison operators of _BaseVersion (which compare the _key
    tuples with Python tuple semantics, including the possibility of a
    TypeError when a str meets an int/float),
  * the pure decision core of CheckPackageUpdates.check_new_package_available
    (the network fetch, statistics thread and the only_once latch are
    external collaborators and are not part of the core).

Python machine-level caveats reflected in the model:
  * Python ints are unbounded, so Nat/Int model them exactly; all numbers
    captured by the regex are non-negative, so Nat suffices.
  * float("inf") sentinels of _cmpkey are modelled by explicit
    posInf/negInf constructors; comparisons between numbers and these
    sentinels are exact (no finite float is ever produced).
  * int("") raises ValueError, local[1] on a 1-tuple raises IndexError,
    and ordering a str against an int/float raises TypeError; each is
    modelled as an explicit error value.
  * Python \s and str.lower() are modelled on ASCII (the grammar itself
    only produces ASCII tokens).
-/

namespace Trains

abbrev Chars := List Char

/-- Errors the embedded Python code can raise. `invalidVersion` carries the
offending raw input, exactly as `InvalidVersion("Invalid version: ...")`
does; `valueError` carries the string handed to `int()`. -/
inductive PyErr where
  | invalidVersion (raw : String)
  | valueError (raw : String)
  | indexError
  | typeError
deriving DecidableEq

/-- ASCII model of Python str.lower (source: letter.lower(), part.lower()). -/
def lowerChar (c : Char) : Char :=
  if 65 ≤ c.toNat ∧ c.toNat ≤ 90 then Char.ofNat (c.toNat + 32) else c

def lowerStr (s : String) : String := ⟨s.data.map lowerChar⟩

/-- The character class [0-9] of the VERSION_PATTERN regex. -/
def isDig (c : Char) : Bool := decide (48 ≤ c.toNat ∧ c.toNat ≤ 57)

/-- The separator class [-_.] used throughout the VERSION_PATTERN regex
(code points 45, 95, 46). -/
def isSep (c : Char) : Bool :=
  decide (c.toNat = 45 ∨ c.toNat = 95 ∨ c.toNat = 46)

/-- The class [a-z0-9] under re.IGNORECASE, used for the local segment. -/
def isAlnumCI (c : Char) : Bool :=
  isDig c || decide (97 ≤ c.toNat ∧ c.toNat ≤ 122) || decide (65 ≤ c.toNat ∧ c.toNat ≤ 90)

/-- The lowercase letters and digits (what a lowercased local part holds). -/
def isLowerAlnum (c : Char) : Bool :=
  isDig c || decide (97 ≤ c.toNat ∧ c.toNat ≤ 122)

def isLocalChar (c : Char) : Bool := isAlnumCI c || isSep c

/-- ASCII model of the \s class (the regex is anchored as \s* ... \s*);
code points 32, 9, 10, 13, 11, 12. -/
def isSpace (c : Char) : Bool :=
  decide (c.toNat = 32 ∨ c.toNat = 9 ∨ c.toNat = 10 ∨ c.toNat = 13 ∨
    c.toNat = 11 ∨ c.toNat = 12)

def digitChar (d : Nat) : Char := Char.ofNat (48 + d)

def natReprGo : Nat → Nat → Chars
  | 0, _ => []
  | fuel + 1, n =>
    if n < 10 then [digitChar n]
    else natReprGo fuel (n / 10) ++ [digitChar (n % 10)]

/-- Decimal rendering of a Python non-negative int, as str() produces it. -/
def natReprL (n : Nat) : Chars := natReprGo (n + 1) n

def natReprS (n : Nat) : String := ⟨natReprL n⟩

/-- Value of a string of decimal digits (the semantics of int() on the
digit-only strings the regex can capture). -/
def natOfDigits (ds : Chars) : Nat :=
  ds.foldl (fun a c => a * 10 + (c.toNat - 48)) 0

/-- Python int(s) for the strings this program can pass it: the regex only
ever captures non-empty digit strings, and the `or ''` call sites can pass
the empty string, on which int() raises ValueError. -/
def pyInt (s : String) : Except PyErr Nat :=
  if s.data ≠ [] ∧ s.data.all isDig then .ok (natOfDigits s.data)
  else .error (.valueError s)

/-- One element of the parsed local tuple: int(part) when part.isdigit(),
otherwise part.lower() (source _parse_local_version). -/
inductive LPart where
  | num (n : Nat)
  | str (s : String)
deriving DecidableEq

/-- The namedtuple _Version(epoch, release, dev, pre, post, local) holding
the parsed-out pieces of the version (source lines 21-23 and 96-105). -/
structure Segments where
  epoch : Nat
  release : List Nat
  pre : Option (String × Nat)
  post : Option (String × Nat)
  dev : Option (String × Nat)
  localSeg : Option (List LPart)
deriving DecidableEq

/-- Value of one of the pre/post/dev slots of the _cmpkey tuple: either a
float infinity sentinel or the segment number (source lines 263-280). -/
inductive Rank where
  | negInf
  | fin (n : Nat)
  | posInf
deriving DecidableEq

/-- Value of the local slot of the _cmpkey tuple: float("inf") when the
local segment is absent, otherwise local[1] (an int or a str). -/
inductive LocalRank where
  | fin (p : LPart)
  | posInf
deriving DecidableEq

/-- The 6-tuple produced by Version._cmpkey and stored as self._key. -/
structure Key where
  epoch : Nat
  release : List Nat
  pre : Rank
  post : Rank
  dev : Rank
  localRank : LocalRank
deriving DecidableEq

/-- A parsed Version: the stored _Version namedtuple plus the _key computed
once in __init__. -/
structure Version where
  segments : Segments
  key : Key
deriving DecidableEq

/-- Python truthiness of a group value that is either None or a str. -/
def pyTruthyS : Option String → Bool
  | none => false
  | some s => !s.data.isEmpty

/-- str.isdigit() for ASCII strings: non-empty and all digits. -/
def pyIsDigit (s : String) : Bool := !s.data.isEmpty && s.data.all isDig

/-- Python truthiness of an element of the local tuple (0 and "" are falsy). -/
def lpartTruthy : LPart → Bool
  | .num n => decide (n ≠ 0)
  | .str s => !s.data.isEmpty

/-- The synonym normalization of Version._parse_letter_version lines
220-227: alpha to a, beta to b, c/pre/preview to rc, rev/r to post. -/
def normalizeTag (l : String) : String :=
  if l = "alpha" then "a"
  else if l = "beta" then "b"
  else if l = "c" ∨ l = "pre" ∨ l = "preview" then "rc"
  else if l = "rev" ∨ l = "r" then "post"
  else l

/-- Version._parse_letter_version (source lines 204-235). `letter` and
`number` are the Python arguments: None, or the captured text, or the
empty string produced by the `or ''` at the call sites. Note that the
implicit-0 default (line 211) only fires when number is None; when the
caller passed '' instead, int('') raises ValueError. -/
def parseLetterVersion (letter number : Option String) :
    Except PyErr (Option (String × Nat)) :=
  if !pyTruthyS letter && !pyTruthyS number then .ok none
  else if pyTruthyS letter then
    match number with
    | none => .ok (some (normalizeTag (lowerStr (letter.getD "")), 0))
    | some s =>
      match pyInt s with
      | .error e => .error e
      | .ok n => .ok (some (normalizeTag (lowerStr (letter.getD "")), n))
  else
    -- letter is falsy and number is truthy: implicit post release syntax
    match pyInt (number.getD "") with
    | .error e => .error e
    | .ok n => .ok (some ("post", n))

/-- re.split("[._-]", s): cut at every separator occurrence (a split on the
empty string yields ['']). -/
def splitSepsGo (acc : Chars) : Chars → List String
  | [] => [⟨acc.reverse⟩]
  | c :: r =>
    if isSep c then ⟨acc.reverse⟩ :: splitSepsGo [] r
    else splitSepsGo (c :: acc) r

def splitSeps (cs : Chars) : List String := splitSepsGo [] cs

/-- Version._parse_local_version (source lines 237-250), called with
`match.group("local") or ''`. Digit parts become ints, others are
lowercased; a result that is empty or whose first element is falsy
becomes None. -/
def parseLocalVersion (loc : String) : Option (List LPart) :=
  let tup := (splitSeps loc.data).map
    (fun p => if pyIsDigit p then LPart.num (natOfDigits p.data) else LPart.str (lowerStr p))
  match tup with
  | [] => none
  | p :: _ => if lpartTruthy p then some tup else none

/-- Version._cmpkey (source lines 252-295). The commented-out
trailing-zero removal of the release is absent from the live code, so the
release tuple is used as parsed. Absent pre/dev map to +inf, absent post
to -inf, absent local to +inf; a present local contributes local[1],
which raises IndexError when the local tuple has a single element. -/
def cmpkey (s : Segments) : Except PyErr Key :=
  let pre : Rank := match s.pre with
    | none => .posInf
    | some (_, n) => .fin n
  let post : Rank := match s.post with
    | none => .negInf
    | some (_, n) => .fin n
  let dev : Rank := match s.dev with
    | none => .posInf
    | some (_, n) => .fin n
  match s.localSeg with
  | none => .ok ⟨s.epoch, s.release, pre, post, dev, .posInf⟩
  | some [] => .ok ⟨s.epoch, s.release, pre, post, dev, .posInf⟩
  | some [_] => .error .indexError
  | some (_ :: q :: _) => .ok ⟨s.epoch, s.release, pre, post, dev, .fin q⟩

/- ------------------------------------------------------------------
The regular expression.

_regex = re.compile(r"^\s*" + VERSION_PATTERN + r"\s*$", VERBOSE | IGNORECASE)

The pattern is fixed and shallow, so it is embedded as a hand-written
backtracking matcher with one function per group, trying alternatives in
the order the regex engine does.  Greedy subpatterns whose give-back can
never be needed are implemented as maximal munch:
  * a [0-9]+ capture is always followed by context that cannot start with
    a digit (tags, separators, "+", "!", whitespace or end of input);
  * \s* is never followed by something that matches a space;
  * the release loop (\.[0-9]+)* is followed by context that never starts
    with a dot-then-digit;
  * the local token run is followed by \s*$ only.
Separator choices [-_.]? and the tag alternations keep explicit ordered
alternatives with fallback, like the engine.
------------------------------------------------------------------- -/

/-- Groups captured by the tail (?:\+(?P<local>...))? of the pattern. -/
structure TailG where
  loc : Option String
deriving DecidableEq

/-- Groups captured by the dev group and everything after it. -/
structure DevG where
  dev_l : Option String
  dev_n : Option String
  tail : TailG
deriving DecidableEq

/-- Groups captured by the post group and everything after it. -/
structure PostG where
  post_l : Option String
  post_n1 : Option String
  post_n2 : Option String
  devg : DevG
deriving DecidableEq

/-- Groups captured by the pre group and everything after it. -/
structure PreG where
  pre_l : Option String
  pre_n : Option String
  postg : PostG
deriving DecidableEq

/-- All named groups of one successful match of _regex. The release is
kept as its dot-separated chunks, i.e. with the split(".") of source line
98 already applied to the captured text. -/
structure Groups where
  epoch : Option String
  releaseChunks : List String
  preg : PreG
deriving DecidableEq

/-- First successful alternative, in order: the regex engine's alternation. -/
def firstSome {α : Type} : List (Option α) → Option α
  | [] => none
  | some a :: _ => some a
  | none :: rest => firstSome rest

/-- Case-insensitive literal match (pat is lowercase): returns the consumed
text as it appeared in the input, plus the rest. -/
def matchCI : Chars → Chars → Option (Chars × Chars)
  | [], cs => some ([], cs)
  | _ :: _, [] => none
  | p :: ps, c :: cs =>
    if lowerChar c = p then (matchCI ps cs).map (fun m => (c :: m.1, m.2)) else none

/-- The optional separator [-_.]? : greedily consume one separator, fall
back to consuming nothing (the engine's backtracking order). -/
def trySep {β : Type} (k : Chars → Option β) : Chars → Option β
  | [] => k []
  | c :: r => if isSep c then firstSome [k r, k (c :: r)] else k (c :: r)

/-- An optional greedy digit capture ([0-9]+)? followed by context that can
never start with a digit, hence maximal munch without give-back. -/
def optDigits {β : Type} (k : Option String → Chars → Option β) (cs : Chars) : Option β :=
  let ds := cs.takeWhile isDig
  if ds.isEmpty then k none cs else k (some ⟨ds⟩) (cs.dropWhile isDig)

/-- Ordered tag alternation (a|b|...), each alternative continued into the
rest of the pattern, with backtracking to the next tag on failure. -/
def tryTags {β : Type} (tags : List String) (k : Chars → Chars → Option β)
    (cs : Chars) : Option β :=
  firstSome (tags.map (fun t => (matchCI t.data cs).bind (fun m => k m.1 m.2)))

/-- Does a char run match [a-z0-9]+(?:[-_.][a-z0-9]+)* (IGNORECASE)?
validLocalAfter checks the part after the leading alphanumeric: each
further char is an alphanumeric continuing the current token, or a
separator that must be followed by an alphanumeric starting the next. -/
def validLocalAfter : Chars → Bool
  | [] => true
  | [c] => isAlnumCI c
  | c :: d :: rest =>
    (isAlnumCI c && validLocalAfter (d :: rest)) ||
      (!isAlnumCI c && isSep c && isAlnumCI d && validLocalAfter rest)

def validLocal : Chars → Bool
  | [] => false
  | c :: rest => isAlnumCI c && validLocalAfter rest

/-- The pattern tail (?:\+(?P<local>[a-z0-9]+(?:[-_.][a-z0-9]+)*))?\s*$ . -/
def tailStage (cs : Chars) : Option TailG :=
  match cs with
  | c :: rest =>
    if c = '+' then
      let run := rest.takeWhile isLocalChar
      let after := rest.dropWhile isLocalChar
      if validLocal run && after.all isSpace then some ⟨some ⟨run⟩⟩ else none
    else if (c :: rest).all isSpace then some ⟨none⟩ else none
  | [] => some ⟨none⟩

/-- The dev group when present: [-_.]? (dev) [-_.]? ([0-9]+)? then tail. -/
def devPresent (cs : Chars) : Option DevG :=
  trySep (fun cs1 =>
    (matchCI ['d', 'e', 'v'] cs1).bind (fun m =>
      trySep (optDigits (fun n cs3 =>
        (tailStage cs3).map (fun t => ⟨some ⟨m.1⟩, n, t⟩))) m.2)) cs

/-- The optional dev group: present first, then absent. -/
def devStage (cs : Chars) : Option DevG :=
  firstSome [devPresent cs, (tailStage cs).map (fun t => ⟨none, none, t⟩)]

/-- First post alternative: (?:-(?P<post_n1>[0-9]+)). -/
def postAlt1 (cs : Chars) : Option PostG :=
  match cs with
  | c :: r =>
    if c = '-' then
      let ds := r.takeWhile isDig
      if ds.isEmpty then none
      else (devStage (r.dropWhile isDig)).map (fun d => ⟨none, some ⟨ds⟩, none, d⟩)
    else none
  | [] => none

/-- Second post alternative: [-_.]? (post|rev|r) [-_.]? ([0-9]+)?. -/
def postAlt2 (cs : Chars) : Option PostG :=
  trySep (tryTags ["post", "rev", "r"] (fun txt cs2 =>
    trySep (optDigits (fun n cs3 =>
      (devStage cs3).map (fun d => ⟨some ⟨txt⟩, none, n, d⟩))) cs2)) cs

/-- The optional post group: alternative 1, alternative 2, then absent. -/
def postStage (cs : Chars) : Option PostG :=
  firstSome [postAlt1 cs, postAlt2 cs,
    (devStage cs).map (fun d => ⟨none, none, none, d⟩)]

def preTags : List String := ["a", "b", "c", "rc", "alpha", "beta", "pre", "preview"]

/-- The pre group when present: [-_.]? (a|b|c|rc|alpha|beta|pre|preview)
[-_.]? ([0-9]+)?. -/
def prePresent (cs : Chars) : Option PreG :=
  trySep (tryTags preTags (fun txt cs2 =>
    trySep (optDigits (fun n cs3 =>
      (postStage cs3).map (fun p => ⟨some ⟨txt⟩, n, p⟩))) cs2)) cs

/-- The optional pre group: present first, then absent. -/
def preStage (cs : Chars) : Option PreG :=
  firstSome [prePresent cs, (postStage cs).map (fun p => ⟨none, none, p⟩)]

/-- The release loop (?:\.[0-9]+)* as chunk collection; fuel is an upper
bound on the input length (the loop consumes at least two chars per
round, so fuel = length always suffices). -/
def chunkLoopF : Nat → Chars → (List String × Chars)
  | 0, cs => ([], cs)
  | _ + 1, [] => ([], [])
  | _ + 1, [c] => ([], [c])
  | fuel + 1, c :: d :: r =>
    if c = '.' ∧ isDig d = true then
      let ds := (d :: r).takeWhile isDig
      let rest := (d :: r).dropWhile isDig
      let more := chunkLoopF fuel rest
      (⟨ds⟩ :: more.1, more.2)
    else ([], c :: d :: r)

/-- The release segment [0-9]+(?:\.[0-9]+)* followed by the rest of the
pattern; `ep` is the already-captured epoch group. -/
def releaseStage (ep : Option String) (cs : Chars) : Option Groups :=
  let ds := cs.takeWhile isDig
  if ds.isEmpty then none
  else
    let loop := chunkLoopF cs.length (cs.dropWhile isDig)
    (preStage loop.2).map (fun p => ⟨ep, String.mk ds :: loop.1, p⟩)

/-- The "!" test after a candidate epoch capture. -/
def bangCheck (ds : Chars) : Chars → Option Groups
  | c :: r => if c = '!' then releaseStage (some ⟨ds⟩) r else none
  | [] => none

/-- The optional epoch (?:(?P<epoch>[0-9]+)!)? when present: digits
immediately followed by "!". -/
def epochTry (cs : Chars) : Option Groups :=
  let ds := cs.takeWhile isDig
  if ds.isEmpty then none
  else bangCheck ds (cs.dropWhile isDig)

/-- The deterministic leading v? : release can never start with "v", so a
consumed "v" never needs to be given back. -/
def vStrip : Chars → Chars
  | c :: r => if lowerChar c = 'v' then r else c :: r
  | [] => []

/-- The whole anchored regex ^\s*v?(?:...)\s*$ on a char list. -/
def regexMatch (cs : Chars) : Option Groups :=
  let cs2 := vStrip (cs.dropWhile isSpace)
  firstSome [epochTry cs2, releaseStage none cs2]

/-- Sequential int() over the release chunks: int(i) for i in
match.group("release").split(".") (source line 98). -/
def intAll : List String → Except PyErr (List Nat)
  | [] => .ok []
  | s :: ss => do
    let n ← pyInt s
    let ns ← intAll ss
    pure (n :: ns)

/-- int(match.group("epoch")) if match.group("epoch") else 0. -/
def epochInt : Option String → Except PyErr Nat
  | some e => pyInt e
  | none => pure 0

/-- Version.__init__ after a successful regex match (source lines 96-115):
build the _Version namedtuple from the groups, then compute _cmpkey. The
`or ''` argument forms at the post/dev/local call sites are reproduced
exactly. -/
def versionInit (g : Groups) : Except PyErr Version := do
  let epoch ← epochInt g.epoch
  let release ← intAll g.releaseChunks
  let pre ← parseLetterVersion g.preg.pre_l g.preg.pre_n
  let post ← parseLetterVersion (some (g.preg.postg.post_l.getD ""))
      (some (g.preg.postg.post_n1.getD (g.preg.postg.post_n2.getD "")))
  let dev ← parseLetterVersion (some (g.preg.postg.devg.dev_l.getD ""))
      (some (g.preg.postg.devg.dev_n.getD ""))
  let localSeg := parseLocalVersion (g.preg.postg.devg.tail.loc.getD "")
  let segs : Segments := ⟨epoch, release, pre, post, dev, localSeg⟩
  let key ← cmpkey segs
  pure ⟨segs, key⟩

/-- Version(version): raise InvalidVersion when the regex does not match,
otherwise run __init__ on the captured groups (which can itself raise
ValueError or IndexError, see parseLetterVersion and cmpkey). -/
def parse (s : String) : Except PyErr Version :=
  match regexMatch s.data with
  | none => .error (.invalidVersion s)
  | some g => versionInit g

/-- ".".join of rendered pieces. -/
def joinDots : List Chars → Chars
  | [] => []
  | [x] => x
  | x :: xs => x ++ '.' :: joinDots xs

/-- str(x) for an element of the local tuple. -/
def lpartRender : LPart → Chars
  | .num n => natReprL n
  | .str s => s.data

/-- The "{0}!".format(self.epoch) piece of __str__, present iff epoch is
nonzero. -/
def epochPart (s : Segments) : Chars :=
  if s.epoch ≠ 0 then natReprL s.epoch ++ ['!'] else []

/-- The ".".join(str(x) for x in self.release) piece of __str__. -/
def relPart (s : Segments) : Chars := joinDots (s.release.map natReprL)

/-- The "".join(str(x) for x in self.pre) piece of __str__. -/
def prePart (s : Segments) : Chars :=
  match s.pre with
  | some (t, n) => t.data ++ natReprL n
  | none => []

/-- The ".post{0}".format(self.post) piece of __str__. -/
def postPart (s : Segments) : Chars :=
  match s.post with
  | some (_, n) => '.' :: 'p' :: 'o' :: 's' :: 't' :: natReprL n
  | none => []

/-- The ".dev{0}".format(self.dev) piece of __str__. -/
def devPart (s : Segments) : Chars :=
  match s.dev with
  | some (_, n) => '.' :: 'd' :: 'e' :: 'v' :: natReprL n
  | none => []

/-- The "+{0}".format(self.local) piece of __str__. -/
def localPart (s : Segments) : Chars :=
  match s.localSeg with
  | some ps => '+' :: joinDots (ps.map lpartRender)
  | none => []

/-- Version.__str__ (source lines 120-146): epoch! when nonzero,
dot-joined release, pre tag and number with no separator, .postN, .devN,
then +local. -/
def renderChars (s : Segments) : Chars :=
  epochPart s ++ relPart s ++ prePart s ++ postPart s ++ devPart s ++ localPart s

def render (v : Version) : String := ⟨renderChars v.segments⟩

/- ------------------------------------------------------------------
Comparison of keys: Python tuple comparison semantics. Two tuples are
compared slot by slot; the first slot whose values are not equal decides
via < on those values, which raises TypeError when a str meets an
int/float. == between a str and an int/float is False and never raises.
------------------------------------------------------------------- -/

def cmpNat (a b : Nat) : Ordering :=
  if a < b then .lt else if b < a then .gt else .eq

/-- Python tuple comparison on the release tuples (componentwise, shorter
strict prefix first). -/
def cmpListNat : List Nat → List Nat → Ordering
  | [], [] => .eq
  | [], _ :: _ => .lt
  | _ :: _, [] => .gt
  | x :: xs, y :: ys =>
    match cmpNat x y with
    | .eq => cmpListNat xs ys
    | o => o

/-- Comparison of a pre/post/dev slot: numbers against float infinities,
always defined. -/
def cmpRank : Rank → Rank → Ordering
  | .negInf, .negInf => .eq
  | .negInf, _ => .lt
  | _, .negInf => .gt
  | .posInf, .posInf => .eq
  | .fin _, .posInf => .lt
  | .posInf, .fin _ => .gt
  | .fin a, .fin b => cmpNat a b

/-- Python string comparison: lexicographic by code point. -/
def cmpChars : Chars → Chars → Ordering
  | [], [] => .eq
  | [], _ :: _ => .lt
  | _ :: _, [] => .gt
  | c :: cs, d :: ds =>
    match cmpNat c.toNat d.toNat with
    | .eq => cmpChars cs ds
    | o => o

/-- Comparison of the local slot. A str on one side and an int or inf on
the other are unequal under ==, so the tuple comparison applies < to them
and Python raises TypeError. -/
def cmpLocal : LocalRank → LocalRank → Except PyErr Ordering
  | .posInf, .posInf => .ok .eq
  | .posInf, .fin (.num _) => .ok .gt
  | .fin (.num _), .posInf => .ok .lt
  | .fin (.num a), .fin (.num b) => .ok (cmpNat a b)
  | .fin (.str a), .fin (.str b) => .ok (cmpChars a.data b.data)
  | _, _ => .error .typeError

/-- Lexicographic composition: the second comparison decides only when the
first is a tie (the per-slot step of Python tuple comparison). -/
def ordThen (o1 o2 : Ordering) : Ordering :=
  match o1 with
  | .eq => o2
  | o => o

/-- The always-defined part of the _key comparison: the first five slots
(epoch, release, pre, post, dev) hold only numbers, tuples of numbers and
infinities, so Python compares them without error. -/
def pureChain (k1 k2 : Key) : Ordering :=
  ordThen (cmpNat k1.epoch k2.epoch)
    (ordThen (cmpListNat k1.release k2.release)
      (ordThen (cmpRank k1.pre k2.pre)
        (ordThen (cmpRank k1.post k2.post) (cmpRank k1.dev k2.dev))))

/-- Ordering of two _key tuples under Python tuple comparison: the local
slot is reached only when the first five slots tie, and only there can a
TypeError arise. -/
def keyCmp (k1 k2 : Key) : Except PyErr Ordering :=
  match pureChain k1 k2 with
  | .eq => cmpLocal k1.localRank k2.localRank
  | o => .ok o

/-- Python == on two _key tuples: slotwise ==, total (str == int is just
False). On this representation it coincides with structural equality. -/
def keyEq (k1 k2 : Key) : Bool := decide (k1 = k2)

/-- self < other (source lines 30-31, 48-52). -/
def vlt (v1 v2 : Version) : Except PyErr Bool :=
  (keyCmp v1.key v2.key).map (fun o => o == Ordering.lt)

/-- self > other. -/
def vgt (v1 v2 : Version) : Except PyErr Bool :=
  (keyCmp v1.key v2.key).map (fun o => o == Ordering.gt)

/-- self >= other. -/
def vge (v1 v2 : Version) : Except PyErr Bool :=
  (keyCmp v1.key v2.key).map (fun o => o == Ordering.gt || o == Ordering.eq)

/-- self == other (total on keys). -/
def veq (v1 v2 : Version) : Bool := keyEq v1.key v2.key

/-- Parse two raw strings and compare with <. -/
def parseCmpLt (a b : String) : Except PyErr Bool := do
  let v1 ← parse a
  let v2 ← parse b
  vlt v1 v2

/-- Parse two raw strings and compare with >. -/
def parseCmpGt (a b : String) : Except PyErr Bool := do
  let v1 ← parse a
  let v2 ← parse b
  vgt v1 v2

/-- Parse two raw strings and compare with ==. -/
def parseCmpEq (a b : String) : Except PyErr Bool := do
  let v1 ← parse a
  let v2 ← parse b
  pure (veq v1 v2)

/- ------------------------------------------------------------------
The decision core of CheckPackageUpdates.check_new_package_available
(source lines 301-331). The candidate list stands for the keys of the
"releases" JSON mapping; the current version string stands for
trains.version.__version__. Everything runs inside one catch-all
try/except that turns any raised exception into None.
------------------------------------------------------------------- -/

/-- The list comprehension [Version(r) for r in releases] (source line
319): the first parse failure propagates as an exception. -/
def parseAll : List String → Except PyErr (List Version)
  | [] => .ok []
  | c :: cs => do
    let v ← parse c
    let vs ← parseAll cs
    pure (v :: vs)

/-- self.dev is not None (source is_devrelease). -/
def isDevRelease (v : Version) : Bool := v.segments.dev.isSome

/-- self.dev is not None or self.pre is not None (source is_prerelease). -/
def isPreRelease (v : Version) : Bool := v.segments.dev.isSome || v.segments.pre.isSome

def insertM (v : Version) : List Version → Except PyErr (List Version)
  | [] => .ok [v]
  | w :: ws => do
    let b ← vlt v w
    if b then .ok (v :: w :: ws)
    else do
      let rest ← insertM v ws
      .ok (w :: rest)

/-- sorted(releases) (source line 320), modelled as insertion sort over
__lt__. CPython timsort may compare a different set of pairs, but when
every pairwise comparison is defined the resulting ascending order is the
same; when a comparison raises, both abort the check through the
catch-all handler. -/
def sortM : List Version → Except PyErr (List Version)
  | [] => .ok []
  | v :: vs => do
    let rest ← sortM vs
    insertM v rest

/-- The try-block of check_new_package_available: parse all candidates,
sort, parse the current version, drop dev/pre candidates when the current
version is stable, take the maximum, compare and classify the upgrade.
latest_version[-1] on an empty list raises IndexError; every raised
exception is caught and turned into None. -/
def evaluateE (cur : String) (cands : List String) :
    Except PyErr (Option (String × Bool)) := do
  let vs ← parseAll cands
  let sortedVs ← sortM vs
  let curV ← parse cur
  let latestList :=
    if !isDevRelease curV && !isPreRelease curV then
      sortedVs.filter (fun r => !isDevRelease r && !isPreRelease r)
    else sortedVs
  let latest ← match latestList.getLast? with
    | some x => Except.ok x
    | none => Except.error PyErr.indexError
  let ge ← vge curV latest
  if ge then pure none
  else pure (some (render latest,
    decide (latest.segments.release.take 2 ≠ curV.segments.release.take 2)))

/-- check_new_package_available's observable result: the try-block value,
with any exception absorbed into None (source lines 330-331). -/
def evaluate (cur : String) (cands : List String) : Option (String × Bool) :=
  match evaluateE cur cands with
  | .ok r => r
  | .error _ => none

instance exceptDecEq {ε α : Type} [DecidableEq ε] [DecidableEq α] :
    DecidableEq (Except ε α) := fun x y =>
  match x, y with
  | .ok a, .ok b =>
    if h : a = b then .isTrue (by rw [h])
    else .isFalse (fun hc => h (Except.ok.inj hc))
  | .error e, .error f =>
    if h : e = f then .isTrue (by rw [h])
    else .isFalse (fun hc => h (Except.error.inj hc))
  | .ok _, .error _ => .isFalse (fun hc => Except.noConfusion hc)
  | .error _, .ok _ => .isFalse (fun hc => Except.noConfusion hc)

/-- A local slot that is a number or the absent-local sentinel (no str). -/
def numLR : LocalRank → Bool
  | .fin (.str _) => false
  | _ => true

/-- A key whose local slot is a number or the absent-local sentinel (no
str): ordering against any other such key never raises TypeError. -/
def numericLocal (k : Key) : Bool := numLR k.localRank

/-- Total comparison coinciding with keyCmp whenever keyCmp is defined;
the str-versus-number case (where Python raises TypeError) is mapped
arbitrarily and never used under a numericLocal hypothesis. -/
def cmpLocalT : LocalRank → LocalRank → Ordering
  | .posInf, .posInf => .eq
  | .posInf, .fin (.num _) => .gt
  | .fin (.num _), .posInf => .lt
  | .fin (.num a), .fin (.num b) => cmpNat a b
  | .fin (.str a), .fin (.str b) => cmpChars a.data b.data
  | .fin (.str _), _ => .lt
  | _, .fin (.str _) => .gt

/-- Total variant of keyCmp, used to state the order-theoretic facts. -/
def keyCmpT (k1 k2 : Key) : Ordering :=
  ordThen (pureChain k1 k2) (cmpLocalT k1.localRank k2.localRank)

/-- The value parse "1.0" evaluates to, written out. -/
def v10 : Version :=
  ⟨⟨0, [1, 0], none, none, none, none⟩,
   ⟨0, [1, 0], .posInf, .negInf, .posInf, .posInf⟩⟩

/-- The value parse "1.1" evaluates to, written out. -/
def v11 : Version :=
  ⟨⟨0, [1, 1], none, none, none, none⟩,
   ⟨0, [1, 1], .posInf, .negInf, .posInf, .posInf⟩⟩

/-- The value parse "1.2" evaluates to, written out. -/
def v12 : Version :=
  ⟨⟨0, [1, 2], none, none, none, none⟩,
   ⟨0, [1, 2], .posInf, .negInf, .posInf, .posInf⟩⟩

/-- The value parse "1.0a1" evaluates to, written out. -/
def v10a1 : Version :=
  ⟨⟨0, [1, 0], some ("a", 1), none, none, none⟩,
   ⟨0, [1, 0], .fin 1, .negInf, .posInf, .posInf⟩⟩

/-- Well-formedness of one stored local part: numbers are arbitrary,
strings are non-empty, lowercase alphanumeric, and not all digits (a part
of digits only would have been stored as a number). -/
def lpartWF : LPart → Bool
  | .num _ => true
  | .str s => !s.data.isEmpty && s.data.all isLowerAlnum && !s.data.all isDig

/-- The segment shapes that a successful parse can produce: a non-empty
release, normalized pre tag in a/b/rc, post tag "post", dev tag "dev",
and a local tuple of at least two well-formed parts whose head is truthy
(a single-part local would have raised IndexError in _cmpkey). -/
def segWF (s : Segments) : Bool :=
  !s.release.isEmpty &&
  (match s.pre with
   | none => true
   | some (t, _) => t == "a" || t == "b" || t == "rc") &&
  (match s.post with
   | none => true
   | some (t, _) => t == "post") &&
  (match s.dev with
   | none => true
   | some (t, _) => t == "dev") &&
  (match s.localSeg with
   | none => true
   | some ps =>
     decide (2 ≤ ps.length) && ps.all lpartWF &&
       (match ps with
        | p :: _ => lpartTruthy p
        | [] => false))

/-- The groups that matching the canonical rendering of well-formed
segments produces. -/
def groupsOf (s : Segments) : Groups :=
  ⟨if s.epoch ≠ 0 then some (natReprS s.epoch) else none,
   s.release.map natReprS,
   ⟨(match s.pre with
     | some (t, _) => some t
     | none => none),
    (match s.pre with
     | some (_, n) => some (natReprS n)
     | none => none),
    ⟨(match s.post with
      | some _ => some "post"
      | none => none),
     none,
     (match s.post with
      | some (_, n) => some (natReprS n)
      | none => none),
     ⟨(match s.dev with
       | some _ => some "dev"
       | none => none),
      (match s.dev with
       | some (_, n) => some (natReprS n)
       | none => none),
      ⟨match s.localSeg with
       | some ps => some ⟨joinDots (ps.map lpartRender)⟩
       | none => none⟩⟩⟩⟩⟩

/-- Shape invariant the matcher guarantees for the tail group. -/
def TailGP (t : TailG) : Prop :=
  t.loc = none ∨ ∃ run, t.loc = some (String.mk run) ∧ validLocal run = true

/-- Shape invariant the matcher guarantees for the dev group. -/
def DevGP (d : DevG) : Prop :=
  (d.dev_l = none ∧ d.dev_n = none ∨
    ∃ m, d.dev_l = some (String.mk m) ∧ m.map lowerChar = ['d', 'e', 'v'] ∧
      (d.dev_n = none ∨
        ∃ ds, d.dev_n = some (String.mk ds) ∧ ds ≠ [] ∧ ds.all isDig = true)) ∧
  TailGP d.tail

/-- Shape invariant the matcher guarantees for the post group. -/
def PostGP (p : PostG) : Prop :=
  (p.post_l = none ∧ p.post_n1 = none ∧ p.post_n2 = none ∨
    (p.post_l = none ∧ p.post_n2 = none ∧
      ∃ ds, p.post_n1 = some (String.mk ds) ∧ ds ≠ [] ∧ ds.all isDig = true) ∨
    (∃ m, p.post_l = some (String.mk m) ∧ p.post_n1 = none ∧
      (m.map lowerChar = ['p', 'o', 's', 't'] ∨ m.map lowerChar = ['r', 'e', 'v'] ∨
        m.map lowerChar = ['r']) ∧
      (p.post_n2 = none ∨
        ∃ ds, p.post_n2 = some (String.mk ds) ∧ ds ≠ [] ∧ ds.all isDig = true))) ∧
  DevGP p.devg

/-- Shape invariant the matcher guarantees for the pre group. -/
def PreGP (g : PreG) : Prop :=
  (g.pre_l = none ∧ g.pre_n = none ∨
    ∃ m, g.pre_l = some (String.mk m) ∧
      (∃ t, t ∈ preTags ∧ m.map lowerChar = t.data) ∧
      (g.pre_n = none ∨
        ∃ ds, g.pre_n = some (String.mk ds) ∧ ds ≠ [] ∧ ds.all isDig = true)) ∧
  PostGP g.postg

/-- Shape invariant the matcher guarantees for a whole match. -/
def GroupsP (g : Groups) : Prop :=
  (∀ ch ∈ g.releaseChunks, ch.data ≠ [] ∧ ch.data.all isDig = true) ∧
  g.releaseChunks ≠ [] ∧ PreGP g.preg

/-- The shape of the dev group when the dev alternative itself matched. -/
abbrev DevShape (d : DevG) : Prop :=
  (∃ m, d.dev_l = some (String.mk m) ∧ m.map lowerChar = ['d', 'e', 'v'] ∧
    (d.dev_n = none ∨
      ∃ ds, d.dev_n = some (String.mk ds) ∧ ds ≠ [] ∧ ds.all isDig = true)) ∧
  TailGP d.tail

/-- The shape the first post alternative (?:-(?P<post_n1>[0-9]+)) produces. -/
abbrev PostShape1 (p : PostG) : Prop :=
  (p.post_l = none ∧ p.post_n2 = none ∧
    ∃ ds, p.post_n1 = some (String.mk ds) ∧ ds ≠ [] ∧ ds.all isDig = true) ∧
  DevGP p.devg

/-- The shape the second post alternative (tagged form) produces. -/
abbrev PostShape2 (p : PostG) : Prop :=
  (∃ m, p.post_l = some (String.mk m) ∧ p.post_n1 = none ∧
    (m.map lowerChar = ['p', 'o', 's', 't'] ∨ m.map lowerChar = ['r', 'e', 'v'] ∨
      m.map lowerChar = ['r']) ∧
    (p.post_n2 = none ∨
      ∃ ds, p.post_n2 = some (String.mk ds) ∧ ds ≠ [] ∧ ds.all isDig = true)) ∧
  DevGP p.devg

/-- The shape of the pre group when the pre alternative itself matched. -/
abbrev PreShape (g : PreG) : Prop :=
  (∃ m, g.pre_l = some (String.mk m) ∧
    (∃ t, t ∈ preTags ∧ m.map lowerChar = t.data) ∧
    (g.pre_n = none ∨
      ∃ ds, g.pre_n = some (String.mk ds) ∧ ds ≠ [] ∧ ds.all isDig = true)) ∧
  PostGP g.postg

/-- The head of the list, if any, fails the predicate (the condition under
which a greedy scan stops exactly at a boundary). -/
def headNot (p : Char → Bool) : Chars → Prop
  | [] => True
  | c :: _ => p c = false

/-- The rendered tail of a release after its first component: a dot and a
number for each remaining component. -/
def dotTail (rs : List Nat) : Chars :=
  rs.foldr (fun r acc => '.' :: (natReprL r ++ acc)) []

/-- The release loop cannot take another step here: no dot-then-digit. -/
def chunkHalt : Chars → Prop
  | c :: d :: _ => ¬(c = '.' ∧ isDig d = true)
  | _ => True

/- ------------------------------------------------------------------
Order-theoretic facts about the slot comparators.
------------------------------------------------------------------- -/

theorem cmpNat_self (a : Nat) : cmpNat a a = .eq := by
  simp [cmpNat]

theorem cmpNat_eq_iff {a b : Nat} : cmpNat a b = .eq ↔ a = b := by
  unfold cmpNat
  by_cases h1 : a < b
  · simp [h1]
    omega
  · by_cases h2 : b < a
    · simp [h1, h2]
      omega
    · simp [h1, h2]
      omega

theorem cmpNat_lt_iff {a b : Nat} : cmpNat a b = .lt ↔ a < b := by
  unfold cmpNat
  by_cases h1 : a < b
  · simp [h1]
  · by_cases h2 : b < a <;> simp [h1, h2]

theorem cmpNat_gt_iff {a b : Nat} : cmpNat a b = .gt ↔ b < a := by
  unfold cmpNat
  by_cases h1 : a < b
  · simp [h1]
    omega
  · by_cases h2 : b < a <;> simp [h1, h2]

theorem cmpNat_swap (a b : Nat) : cmpNat b a = (cmpNat a b).swap := by
  unfold cmpNat
  by_cases h1 : a < b
  · have h2 : ¬b < a := Nat.lt_asymm h1
    simp [h1, h2, Ordering.swap]
  · by_cases h2 : b < a
    · simp [h1, h2, Ordering.swap]
    · simp [h1, h2, Ordering.swap]

theorem cmpNat_lt_trans {a b c : Nat} (h1 : cmpNat a b = .lt)
    (h2 : cmpNat b c = .lt) : cmpNat a c = .lt := by
  rw [cmpNat_lt_iff] at h1 h2 ⊢
  omega

theorem cmpListNat_self (l : List Nat) : cmpListNat l l = .eq := by
  induction l with
  | nil => rfl
  | cons x xs ih => simp [cmpListNat, cmpNat_self, ih]

theorem cmpListNat_eq_iff {l1 l2 : List Nat} :
    cmpListNat l1 l2 = .eq ↔ l1 = l2 := by
  induction l1 generalizing l2 with
  | nil => cases l2 <;> simp [cmpListNat]
  | cons x xs ih =>
    cases l2 with
    | nil => simp [cmpListNat]
    | cons y ys =>
      rcases hxy : cmpNat x y with _ | _ | _
      · simp only [cmpListNat, hxy]
        constructor
        · intro h
          cases h
        · intro h
          injection h with h1 h2
          rw [h1, cmpNat_self] at hxy
          cases hxy
      · have hx : x = y := cmpNat_eq_iff.mp hxy
        subst hx
        simp [cmpListNat, hxy, ih]
      · simp only [cmpListNat, hxy]
        constructor
        · intro h
          cases h
        · intro h
          injection h with h1 h2
          rw [h1, cmpNat_self] at hxy
          cases hxy

theorem cmpListNat_swap (l1 l2 : List Nat) :
    cmpListNat l2 l1 = (cmpListNat l1 l2).swap := by
  induction l1 generalizing l2 with
  | nil => cases l2 <;> rfl
  | cons x xs ih =>
    cases l2 with
    | nil => rfl
    | cons y ys =>
      simp only [cmpListNat]
      rcases hxy : cmpNat x y with _ | _ | _
      · have hyx : cmpNat y x = .gt := cmpNat_gt_iff.mpr (cmpNat_lt_iff.mp hxy)
        rw [hyx]
        rfl
      · have hx : x = y := cmpNat_eq_iff.mp hxy
        subst hx
        rw [cmpNat_self]
        exact ih ys
      · have hyx : cmpNat y x = .lt := cmpNat_lt_iff.mpr (cmpNat_gt_iff.mp hxy)
        rw [hyx]
        rfl

theorem cmpListNat_lt_trans {l1 l2 l3 : List Nat}
    (h1 : cmpListNat l1 l2 = .lt) (h2 : cmpListNat l2 l3 = .lt) :
    cmpListNat l1 l3 = .lt := by
  induction l1 generalizing l2 l3 with
  | nil =>
    cases l2 with
    | nil => cases h1
    | cons y ys =>
      cases l3 with
      | nil => cases h2
      | cons z zs => rfl
  | cons x xs ih =>
    cases l2 with
    | nil => cases h1
    | cons y ys =>
      cases l3 with
      | nil => cases h2
      | cons z zs =>
        simp only [cmpListNat] at h1 h2 ⊢
        rcases hxy : cmpNat x y with _ | _ | _ <;> rw [hxy] at h1 <;>
          rcases hyz : cmpNat y z with _ | _ | _ <;> rw [hyz] at h2
        · rw [cmpNat_lt_trans hxy hyz]
        · have hy : y = z := cmpNat_eq_iff.mp hyz
          subst hy
          rw [hxy]
        · exact absurd h2 (by simp)
        · have hx : x = y := cmpNat_eq_iff.mp hxy
          subst hx
          rw [hyz]
        · have hx : x = y := cmpNat_eq_iff.mp hxy
          have hy : y = z := cmpNat_eq_iff.mp hyz
          subst hx
          subst hy
          rw [cmpNat_self]
          exact ih h1 h2
        · exact absurd h2 (by simp)
        · exact absurd h1 (by simp)
        · exact absurd h1 (by simp)
        · exact absurd h1 (by simp)

theorem cmpRank_self (r : Rank) : cmpRank r r = .eq := by
  cases r <;> simp [cmpRank, cmpNat_self]

theorem cmpRank_eq_iff {r1 r2 : Rank} : cmpRank r1 r2 = .eq ↔ r1 = r2 := by
  cases r1 <;> cases r2 <;> simp [cmpRank, cmpNat_eq_iff]

theorem cmpRank_swap (r1 r2 : Rank) : cmpRank r2 r1 = (cmpRank r1 r2).swap := by
  cases r1 <;> cases r2 <;>
    first
      | rfl
      | exact cmpNat_swap _ _

theorem cmpRank_lt_trans {r1 r2 r3 : Rank} (h1 : cmpRank r1 r2 = .lt)
    (h2 : cmpRank r2 r3 = .lt) : cmpRank r1 r3 = .lt := by
  cases r1 <;> cases r2 <;> cases r3 <;> simp_all [cmpRank]
  exact cmpNat_lt_trans h1 h2

theorem cmpChars_self (l : Chars) : cmpChars l l = .eq := by
  induction l with
  | nil => rfl
  | cons x xs ih => simp [cmpChars, cmpNat_self, ih]

theorem cmpChars_eq_iff {l1 l2 : Chars} : cmpChars l1 l2 = .eq ↔ l1 = l2 := by
  induction l1 generalizing l2 with
  | nil => cases l2 <;> simp [cmpChars]
  | cons x xs ih =>
    cases l2 with
    | nil => simp [cmpChars]
    | cons y ys =>
      rcases hxy : cmpNat x.toNat y.toNat with _ | _ | _
      · simp only [cmpChars, hxy]
        constructor
        · intro h
          cases h
        · intro h
          injection h with h1 h2
          rw [h1, cmpNat_self] at hxy
          cases hxy
      · have hx : x = y := Char.eq_of_val_eq (UInt32.ext (cmpNat_eq_iff.mp hxy))
        subst hx
        simp [cmpChars, hxy, ih]
      · simp only [cmpChars, hxy]
        constructor
        · intro h
          cases h
        · intro h
          injection h with h1 h2
          rw [h1, cmpNat_self] at hxy
          cases hxy

theorem cmpChars_swap (l1 l2 : Chars) : cmpChars l2 l1 = (cmpChars l1 l2).swap := by
  induction l1 generalizing l2 with
  | nil => cases l2 <;> rfl
  | cons x xs ih =>
    cases l2 with
    | nil => rfl
    | cons y ys =>
      simp only [cmpChars]
      rcases hxy : cmpNat x.toNat y.toNat with _ | _ | _
      · have hyx : cmpNat y.toNat x.toNat = .gt :=
          cmpNat_gt_iff.mpr (cmpNat_lt_iff.mp hxy)
        rw [hyx]
        rfl
      · have hx : x = y := Char.eq_of_val_eq (UInt32.ext (cmpNat_eq_iff.mp hxy))
        subst hx
        rw [cmpNat_self]
        exact ih ys
      · have hyx : cmpNat y.toNat x.toNat = .lt :=
          cmpNat_lt_iff.mpr (cmpNat_gt_iff.mp hxy)
        rw [hyx]
        rfl

theorem cmpChars_lt_trans {l1 l2 l3 : Chars}
    (h1 : cmpChars l1 l2 = .lt) (h2 : cmpChars l2 l3 = .lt) :
    cmpChars l1 l3 = .lt := by
  induction l1 generalizing l2 l3 with
  | nil =>
    cases l2 with
    | nil => cases h1
    | cons y ys =>
      cases l3 with
      | nil => cases h2
      | cons z zs => rfl
  | cons x xs ih =>
    cases l2 with
    | nil => cases h1
    | cons y ys =>
      cases l3 with
      | nil => cases h2
      | cons z zs =>
        simp only [cmpChars] at h1 h2 ⊢
        rcases hxy : cmpNat x.toNat y.toNat with _ | _ | _ <;> rw [hxy] at h1 <;>
          rcases hyz : cmpNat y.toNat z.toNat with _ | _ | _ <;> rw [hyz] at h2
        · rw [cmpNat_lt_trans hxy hyz]
        · have hy : y = z := Char.eq_of_val_eq (UInt32.ext (cmpNat_eq_iff.mp hyz))
          subst hy
          rw [hxy]
        · exact absurd h2 (by simp)
        · have hx : x = y := Char.eq_of_val_eq (UInt32.ext (cmpNat_eq_iff.mp hxy))
          subst hx
          rw [hyz]
        · have hx : x = y := Char.eq_of_val_eq (UInt32.ext (cmpNat_eq_iff.mp hxy))
          have hy : y = z := Char.eq_of_val_eq (UInt32.ext (cmpNat_eq_iff.mp hyz))
          subst hx
          subst hy
          rw [cmpNat_self]
          exact ih h1 h2
        · exact absurd h2 (by simp)
        · exact absurd h1 (by simp)
        · exact absurd h1 (by simp)
        · exact absurd h1 (by simp)

theorem ordThen_eq_iff {a b : Ordering} :
    ordThen a b = .eq ↔ a = .eq ∧ b = .eq := by
  cases a <;> simp [ordThen]

theorem ordThen_lt_iff {a b : Ordering} :
    ordThen a b = .lt ↔ a = .lt ∨ (a = .eq ∧ b = .lt) := by
  cases a <;> simp [ordThen]

theorem ordThen_swap (a b : Ordering) :
    ordThen a.swap b.swap = (ordThen a b).swap := by
  cases a <;> rfl

theorem cmpLocalT_self (l : LocalRank) : cmpLocalT l l = .eq := by
  cases l with
  | posInf => rfl
  | fin p => cases p <;> simp [cmpLocalT, cmpNat_self, cmpChars_self]

theorem cmpLocalT_eq_iff {l1 l2 : LocalRank} (n1 : numLR l1 = true)
    (n2 : numLR l2 = true) : cmpLocalT l1 l2 = .eq ↔ l1 = l2 := by
  cases l1 with
  | posInf =>
    cases l2 with
    | posInf => simp [cmpLocalT]
    | fin p =>
      cases p with
      | num n => simp [cmpLocalT]
      | str s => simp [numLR] at n2
  | fin p =>
    cases p with
    | str s => simp [numLR] at n1
    | num a =>
      cases l2 with
      | posInf => simp [cmpLocalT]
      | fin q =>
        cases q with
        | num b => simp [cmpLocalT, cmpNat_eq_iff]
        | str s => simp [numLR] at n2

theorem cmpLocalT_swap {l1 l2 : LocalRank} (n1 : numLR l1 = true)
    (n2 : numLR l2 = true) : cmpLocalT l2 l1 = (cmpLocalT l1 l2).swap := by
  cases l1 with
  | posInf =>
    cases l2 with
    | posInf => rfl
    | fin p =>
      cases p with
      | num n => rfl
      | str s => simp [numLR] at n2
  | fin p =>
    cases p with
    | str s => simp [numLR] at n1
    | num a =>
      cases l2 with
      | posInf => rfl
      | fin q =>
        cases q with
        | num b => exact cmpNat_swap a b
        | str s => simp [numLR] at n2

theorem cmpLocalT_lt_trans {l1 l2 l3 : LocalRank} (n1 : numLR l1 = true)
    (n2 : numLR l2 = true) (n3 : numLR l3 = true)
    (h1 : cmpLocalT l1 l2 = .lt) (h2 : cmpLocalT l2 l3 = .lt) :
    cmpLocalT l1 l3 = .lt := by
  cases l1 with
  | posInf =>
    cases l2 with
    | posInf => simp [cmpLocalT] at h1
    | fin p =>
      cases p with
      | num b => simp [cmpLocalT] at h1
      | str s => simp [numLR] at n2
  | fin p =>
    cases p with
    | str s => simp [numLR] at n1
    | num a =>
      cases l2 with
      | posInf =>
        cases l3 with
        | posInf => simp [cmpLocalT] at h2
        | fin q =>
          cases q with
          | num c => simp [cmpLocalT] at h2
          | str s => simp [numLR] at n3
      | fin q =>
        cases q with
        | str s => simp [numLR] at n2
        | num b =>
          cases l3 with
          | posInf => rfl
          | fin t =>
            cases t with
            | str s => simp [numLR] at n3
            | num c => exact cmpNat_lt_trans h1 h2

/-- On str-free local slots the partial comparison is defined and agrees
with the total one. -/
theorem cmpLocal_ok_of_num {l1 l2 : LocalRank} (n1 : numLR l1 = true)
    (n2 : numLR l2 = true) : cmpLocal l1 l2 = .ok (cmpLocalT l1 l2) := by
  cases l1 with
  | posInf =>
    cases l2 with
    | posInf => rfl
    | fin p =>
      cases p with
      | num n => rfl
      | str s => simp [numLR] at n2
  | fin p =>
    cases p with
    | str s => simp [numLR] at n1
    | num a =>
      cases l2 with
      | posInf => rfl
      | fin q =>
        cases q with
        | num b => rfl
        | str s => simp [numLR] at n2

theorem pureChain_self (k : Key) : pureChain k k = .eq := by
  simp [pureChain, cmpNat_self, cmpListNat_self, cmpRank_self, ordThen]

theorem pureChain_swap (k1 k2 : Key) :
    pureChain k2 k1 = (pureChain k1 k2).swap := by
  unfold pureChain
  rw [cmpNat_swap k1.epoch k2.epoch, cmpListNat_swap k1.release k2.release,
    cmpRank_swap k1.pre k2.pre, cmpRank_swap k1.post k2.post,
    cmpRank_swap k1.dev k2.dev]
  rw [ordThen_swap, ordThen_swap, ordThen_swap, ordThen_swap]

theorem pureChain_eq_imp {k1 k2 : Key} (h : pureChain k1 k2 = .eq) :
    k1.epoch = k2.epoch ∧ k1.release = k2.release ∧ k1.pre = k2.pre ∧
      k1.post = k2.post ∧ k1.dev = k2.dev := by
  unfold pureChain at h
  rw [ordThen_eq_iff] at h
  obtain ⟨h1, h⟩ := h
  rw [ordThen_eq_iff] at h
  obtain ⟨h2, h⟩ := h
  rw [ordThen_eq_iff] at h
  obtain ⟨h3, h⟩ := h
  rw [ordThen_eq_iff] at h
  obtain ⟨h4, h5⟩ := h
  exact ⟨cmpNat_eq_iff.mp h1, cmpListNat_eq_iff.mp h2, cmpRank_eq_iff.mp h3,
    cmpRank_eq_iff.mp h4, cmpRank_eq_iff.mp h5⟩

theorem pureChain_lt_trans {k1 k2 k3 : Key} (h1 : pureChain k1 k2 = .lt)
    (h2 : pureChain k2 k3 = .lt) : pureChain k1 k3 = .lt := by
  unfold pureChain at h1 h2 ⊢
  rw [ordThen_lt_iff] at h1 h2 ⊢
  rcases h1 with h1 | ⟨he12, h1⟩
  · rcases h2 with h2 | ⟨he23, h2⟩
    · exact Or.inl (cmpNat_lt_trans h1 h2)
    · rw [← cmpNat_eq_iff.mp he23]
      exact Or.inl h1
  · rcases h2 with h2 | ⟨he23, h2⟩
    · rw [cmpNat_eq_iff.mp he12]
      exact Or.inl h2
    · refine Or.inr ⟨by rw [cmpNat_eq_iff.mp he12, cmpNat_eq_iff.mp he23, cmpNat_self], ?_⟩
      rw [ordThen_lt_iff] at h1 h2 ⊢
      rcases h1 with h1 | ⟨hr12, h1⟩
      · rcases h2 with h2 | ⟨hr23, h2⟩
        · exact Or.inl (cmpListNat_lt_trans h1 h2)
        · rw [← cmpListNat_eq_iff.mp hr23]
          exact Or.inl h1
      · rcases h2 with h2 | ⟨hr23, h2⟩
        · rw [cmpListNat_eq_iff.mp hr12]
          exact Or.inl h2
        · refine Or.inr ⟨by rw [cmpListNat_eq_iff.mp hr12, cmpListNat_eq_iff.mp hr23,
            cmpListNat_self], ?_⟩
          rw [ordThen_lt_iff] at h1 h2 ⊢
          rcases h1 with h1 | ⟨hp12, h1⟩
          · rcases h2 with h2 | ⟨hp23, h2⟩
            · exact Or.inl (cmpRank_lt_trans h1 h2)
            · rw [← cmpRank_eq_iff.mp hp23]
              exact Or.inl h1
          · rcases h2 with h2 | ⟨hp23, h2⟩
            · rw [cmpRank_eq_iff.mp hp12]
              exact Or.inl h2
            · refine Or.inr ⟨by rw [cmpRank_eq_iff.mp hp12, cmpRank_eq_iff.mp hp23,
                cmpRank_self], ?_⟩
              rw [ordThen_lt_iff] at h1 h2 ⊢
              rcases h1 with h1 | ⟨hq12, h1⟩
              · rcases h2 with h2 | ⟨hq23, h2⟩
                · exact Or.inl (cmpRank_lt_trans h1 h2)
                · rw [← cmpRank_eq_iff.mp hq23]
                  exact Or.inl h1
              · rcases h2 with h2 | ⟨hq23, h2⟩
                · rw [cmpRank_eq_iff.mp hq12]
                  exact Or.inl h2
                · refine Or.inr ⟨by rw [cmpRank_eq_iff.mp hq12, cmpRank_eq_iff.mp hq23,
                    cmpRank_self], ?_⟩
                  exact cmpRank_lt_trans h1 h2

theorem keyCmpT_self (k : Key) : keyCmpT k k = .eq := by
  simp [keyCmpT, pureChain_self, cmpLocalT_self, ordThen]

theorem keyCmpT_eq_imp {k1 k2 : Key} (n1 : numericLocal k1 = true)
    (n2 : numericLocal k2 = true) (h : keyCmpT k1 k2 = .eq) : k1 = k2 := by
  unfold keyCmpT at h
  rw [ordThen_eq_iff] at h
  obtain ⟨hc, hl⟩ := h
  obtain ⟨h1, h2, h3, h4, h5⟩ := pureChain_eq_imp hc
  have h6 : k1.localRank = k2.localRank := (cmpLocalT_eq_iff n1 n2).mp hl
  obtain ⟨e1, r1, p1, q1, d1, L1⟩ := k1
  obtain ⟨e2, r2, p2, q2, d2, L2⟩ := k2
  simp only at h1 h2 h3 h4 h5 h6
  rw [h1, h2, h3, h4, h5, h6]

theorem keyCmpT_swap {k1 k2 : Key} (n1 : numericLocal k1 = true)
    (n2 : numericLocal k2 = true) : keyCmpT k2 k1 = (keyCmpT k1 k2).swap := by
  unfold keyCmpT
  rw [pureChain_swap k1 k2, cmpLocalT_swap n1 n2, ordThen_swap]

theorem keyCmpT_lt_trans {k1 k2 k3 : Key} (n1 : numericLocal k1 = true)
    (n2 : numericLocal k2 = true) (n3 : numericLocal k3 = true)
    (h1 : keyCmpT k1 k2 = .lt) (h2 : keyCmpT k2 k3 = .lt) :
    keyCmpT k1 k3 = .lt := by
  unfold keyCmpT at h1 h2 ⊢
  rw [ordThen_lt_iff] at h1 h2 ⊢
  rcases h1 with h1 | ⟨hc12, h1⟩
  · rcases h2 with h2 | ⟨hc23, h2⟩
    · exact Or.inl (pureChain_lt_trans h1 h2)
    · obtain ⟨a1, a2, a3, a4, a5⟩ := pureChain_eq_imp hc23
      refine Or.inl ?_
      unfold pureChain at h1 ⊢
      rw [← a1, ← a2, ← a3, ← a4, ← a5]
      exact h1
  · rcases h2 with h2 | ⟨hc23, h2⟩
    · obtain ⟨a1, a2, a3, a4, a5⟩ := pureChain_eq_imp hc12
      refine Or.inl ?_
      unfold pureChain at h2 ⊢
      rw [a1, a2, a3, a4, a5]
      exact h2
    · obtain ⟨a1, a2, a3, a4, a5⟩ := pureChain_eq_imp hc12
      obtain ⟨b1, b2, b3, b4, b5⟩ := pureChain_eq_imp hc23
      refine Or.inr ⟨?_, cmpLocalT_lt_trans n1 n2 n3 h1 h2⟩
      unfold pureChain
      rw [a1, a2, a3, a4, a5, b1, b2, b3, b4, b5]
      simp [cmpNat_self, cmpListNat_self, cmpRank_self, ordThen]

/-- On keys with str-free local slots the Python comparison is defined and
agrees with the total comparator. -/
theorem keyCmp_ok_of_numeric {k1 k2 : Key} (n1 : numericLocal k1 = true)
    (n2 : numericLocal k2 = true) : keyCmp k1 k2 = .ok (keyCmpT k1 k2) := by
  unfold keyCmp keyCmpT
  rcases hc : pureChain k1 k2 with _ | _ | _
  · rfl
  · simp only [ordThen]
    exact cmpLocal_ok_of_num n1 n2
  · rfl

theorem ordering_beq_lt {o : Ordering} (h : (o == Ordering.lt) = true) :
    o = Ordering.lt := by
  cases o
  · rfl
  · cases h
  · cases h

/-- Extending a release by one extra component makes the key strictly
smaller on the release slot, whatever the remaining slots hold. -/
theorem cmpListNat_self_append (rs : List Nat) (x : Nat) (ext : List Nat) :
    cmpListNat rs (rs ++ x :: ext) = .lt := by
  induction rs with
  | nil => rfl
  | cons r rs ih => simp [cmpListNat, cmpNat_self, ih]

/-- A parse failure anywhere in the candidate list fails the whole
comprehension. -/
theorem parseAll_error {cands : List String} {c : String} {e : PyErr}
    (hmem : c ∈ cands) (herr : parse c = .error e) :
    ∃ e2, parseAll cands = .error e2 := by
  induction cands with
  | nil => cases hmem
  | cons d ds ih =>
    rcases List.mem_cons.mp hmem with rfl | hmem2
    · refine ⟨e, ?_⟩
      simp only [parseAll, herr]
      rfl
    · rcases hd : parse d with e3 | v
      · refine ⟨e3, ?_⟩
        simp only [parseAll, hd]
        rfl
      · obtain ⟨e2, he2⟩ := ih hmem2
        refine ⟨e2, ?_⟩
        simp only [parseAll, hd, he2]
        rfl

theorem evaluate_eq_none_of_parseAll_error {cur : String} {cands : List String}
    (h : ∃ e, parseAll cands = .error e) : evaluate cur cands = none := by
  obtain ⟨e, he⟩ := h
  unfold evaluate evaluateE
  rw [he]
  rfl

/- ------------------------------------------------------------------
Round-trip development: decimal digits and character classes.
------------------------------------------------------------------- -/

theorem digitChar_toNat {d : Nat} (h : d < 10) : (digitChar d).toNat = 48 + d := by
  interval_cases d <;> rfl

theorem digitChar_isDig {d : Nat} (h : d < 10) : isDig (digitChar d) = true := by
  simp [isDig, digitChar_toNat h]
  omega

theorem natReprGo_spec : ∀ (fuel n : Nat), n < fuel →
    natReprGo fuel n ≠ [] ∧ (natReprGo fuel n).all isDig = true ∧
      natOfDigits (natReprGo fuel n) = n := by
  intro fuel
  induction fuel with
  | zero => intro n h; omega
  | succ f ih =>
    intro n h
    by_cases h10 : n < 10
    · refine ⟨by simp [natReprGo, h10], by simp [natReprGo, h10, digitChar_isDig h10], ?_⟩
      simp only [natReprGo, if_pos h10, natOfDigits, List.foldl_cons, List.foldl_nil,
        digitChar_toNat h10]
      omega
    · have hdf : n / 10 < f := by omega
      obtain ⟨hne, hall, hval⟩ := ih (n / 10) hdf
      have hmod : n % 10 < 10 := Nat.mod_lt _ (by omega)
      refine ⟨by simp [natReprGo, h10], ?_, ?_⟩
      · simp [natReprGo, h10, List.all_append, hall, digitChar_isDig hmod]
      · simp only [natReprGo, if_neg h10]
        have hsplit : natOfDigits (natReprGo f (n / 10) ++ [digitChar (n % 10)]) =
            natOfDigits (natReprGo f (n / 10)) * 10 + ((digitChar (n % 10)).toNat - 48) := by
          simp [natOfDigits, List.foldl_append]
        rw [hsplit, hval, digitChar_toNat hmod]
        omega

theorem natReprL_ne_nil (n : Nat) : natReprL n ≠ [] :=
  (natReprGo_spec (n + 1) n (Nat.lt_succ_self n)).1

theorem natReprL_all_dig (n : Nat) : (natReprL n).all isDig = true :=
  (natReprGo_spec (n + 1) n (Nat.lt_succ_self n)).2.1

theorem natOfDigits_natReprL (n : Nat) : natOfDigits (natReprL n) = n :=
  (natReprGo_spec (n + 1) n (Nat.lt_succ_self n)).2.2

theorem pyInt_natReprS (n : Nat) : pyInt (natReprS n) = .ok n := by
  have h1 := natReprL_ne_nil n
  have h2 := natReprL_all_dig n
  simp only [pyInt, natReprS]
  rw [if_pos ⟨h1, h2⟩, natOfDigits_natReprL]

theorem isDig_toNat {c : Char} (h : isDig c = true) :
    48 ≤ c.toNat ∧ c.toNat ≤ 57 := by
  simpa [isDig] using h

theorem lowerChar_of_isDig {c : Char} (h : isDig c = true) : lowerChar c = c := by
  obtain ⟨h1, h2⟩ := isDig_toNat h
  rw [lowerChar, if_neg]
  omega

theorem isDig_not_sep {c : Char} (h : isDig c = true) : isSep c = false := by
  obtain ⟨h1, h2⟩ := isDig_toNat h
  simp [isSep]
  omega

theorem isDig_not_space {c : Char} (h : isDig c = true) : isSpace c = false := by
  obtain ⟨h1, h2⟩ := isDig_toNat h
  simp [isSpace]
  omega

theorem isDig_isAlnumCI {c : Char} (h : isDig c = true) : isAlnumCI c = true := by
  simp [isAlnumCI, h]

theorem isDig_isLocalChar {c : Char} (h : isDig c = true) : isLocalChar c = true := by
  simp [isLocalChar, isDig_isAlnumCI h]

theorem scan_split {p : Char → Bool} {suffix : Chars} (hs : headNot p suffix) :
    ∀ {ds : Chars}, ds.all p = true →
      (ds ++ suffix).takeWhile p = ds ∧ (ds ++ suffix).dropWhile p = suffix := by
  intro ds
  induction ds with
  | nil =>
    intro _
    cases suffix with
    | nil => exact ⟨rfl, rfl⟩
    | cons c r =>
      have hc : p c = false := hs
      simp [List.takeWhile_cons, List.dropWhile_cons, hc]
  | cons d ds ih =>
    intro hall
    have hd : p d = true := by
      simp [List.all_cons] at hall
      exact hall.1
    have hds : ds.all p = true := by
      simp only [List.all_cons, Bool.and_eq_true] at hall
      exact hall.2
    obtain ⟨ht, hdr⟩ := ih hds
    simp [List.takeWhile_cons, List.dropWhile_cons, hd, ht, hdr]

theorem scan_all {p : Char → Bool} {l : Chars} (h : l.all p = true) :
    l.takeWhile p = l ∧ l.dropWhile p = [] := by
  have h2 := @scan_split p ([] : Chars) trivial l h
  simpa using h2

theorem joinDots_cons (x y : Chars) (rest : List Chars) :
    joinDots (x :: y :: rest) = x ++ '.' :: joinDots (y :: rest) := rfl

theorem joinDots_head (q : Chars) (rest : List Chars) :
    ∃ t, joinDots (q :: rest) = q ++ t := by
  cases rest with
  | nil => exact ⟨[], by simp [joinDots]⟩
  | cons r rs => exact ⟨'.' :: joinDots (r :: rs), joinDots_cons q r rs⟩

theorem all_imp {p q : Char → Bool} {l : Chars} (h : l.all p = true)
    (himp : ∀ c, p c = true → q c = true) : l.all q = true := by
  simp only [List.all_eq_true] at h ⊢
  intro c hc
  exact himp c (h c hc)

theorem isLowerAlnum_isAlnumCI {c : Char} (h : isLowerAlnum c = true) :
    isAlnumCI c = true := by
  simp only [isLowerAlnum, Bool.or_eq_true, decide_eq_true_eq] at h
  simp only [isAlnumCI, isDig, Bool.or_eq_true, decide_eq_true_eq]
  rcases h with h | h
  · simp only [isDig, decide_eq_true_eq] at h
    omega
  · omega

theorem isLowerAlnum_not_sep {c : Char} (h : isLowerAlnum c = true) :
    isSep c = false := by
  simp only [isLowerAlnum, isDig, Bool.or_eq_true, decide_eq_true_eq] at h
  simp only [isSep, decide_eq_false_iff_not]
  omega

theorem isLowerAlnum_lowerChar {c : Char} (h : isLowerAlnum c = true) :
    lowerChar c = c := by
  simp only [isLowerAlnum, isDig, Bool.or_eq_true, decide_eq_true_eq] at h
  rw [lowerChar, if_neg]
  omega

/-- Every rendered local part is a non-empty, separator-free run of
alphanumerics. -/
theorem lpartRender_wf {p : LPart} (h : lpartWF p = true) :
    lpartRender p ≠ [] ∧ (lpartRender p).all isAlnumCI = true ∧
      (lpartRender p).all (fun c => !isSep c) = true := by
  cases p with
  | num n =>
    refine ⟨natReprL_ne_nil n, ?_, ?_⟩
    · exact all_imp (natReprL_all_dig n) (fun c hc => isDig_isAlnumCI hc)
    · exact all_imp (natReprL_all_dig n) (fun c hc => by simp [isDig_not_sep hc])
  | str s =>
    simp only [lpartWF, Bool.and_eq_true] at h
    obtain ⟨⟨hne, hall⟩, _⟩ := h
    refine ⟨?_, ?_, ?_⟩
    · simpa [lpartRender, List.isEmpty_iff] using hne
    · exact all_imp hall (fun c hc => isLowerAlnum_isAlnumCI hc)
    · exact all_imp hall (fun c hc => by simp [isLowerAlnum_not_sep hc])

theorem validLocalAfter_of_all {l : Chars} (h : l.all isAlnumCI = true) :
    validLocalAfter l = true := by
  induction l with
  | nil => rfl
  | cons c cs ih =>
    simp only [List.all_cons, Bool.and_eq_true] at h
    cases cs with
    | nil => simpa [validLocalAfter] using h.1
    | cons d rest => simp [validLocalAfter, h.1, ih h.2]

theorem validLocalAfter_append_alnum {xs : Chars} (hx : xs.all isAlnumCI = true)
    {rest : Chars} (hr : validLocalAfter rest = true) :
    validLocalAfter (xs ++ rest) = true := by
  induction xs with
  | nil => exact hr
  | cons c cs ih =>
    simp only [List.all_cons, Bool.and_eq_true] at hx
    rw [List.cons_append]
    cases hcs : cs with
    | nil =>
      cases rest with
      | nil => simpa [validLocalAfter] using hx.1
      | cons r rs => simp [validLocalAfter, hx.1, hr]
    | cons d cs2 =>
      have h2 := ih hx.2
      rw [hcs, List.cons_append] at h2
      simp [validLocalAfter, hx.1, h2]

theorem validLocal_joinDots : ∀ (parts : List Chars),
    (∀ p ∈ parts, p ≠ [] ∧ p.all isAlnumCI = true) → parts ≠ [] →
    validLocal (joinDots parts) = true := by
  intro parts
  induction parts with
  | nil => intro _ h; exact absurd rfl h
  | cons p rest ih =>
    intro hp _
    obtain ⟨hpne, hpall⟩ := hp p (List.mem_cons_self p rest)
    cases p with
    | nil => exact absurd rfl hpne
    | cons c cs =>
      simp only [List.all_cons, Bool.and_eq_true] at hpall
      cases rest with
      | nil =>
        simp only [joinDots, validLocal, hpall.1, Bool.true_and]
        exact validLocalAfter_of_all hpall.2
      | cons q rest2 =>
        rw [joinDots_cons]
        have hq := ih (fun x hx => hp x (List.mem_cons_of_mem (c :: cs) hx)) (by simp)
        obtain ⟨t, ht⟩ := joinDots_head q rest2
        obtain ⟨hqne, _⟩ := hp q (by simp)
        rcases q with _ | ⟨e, es⟩
        · exact absurd rfl hqne
        · rw [ht] at hq
          simp only [List.cons_append, validLocal, Bool.and_eq_true] at hq
          simp only [List.cons_append, validLocal, hpall.1, Bool.true_and]
          apply validLocalAfter_append_alnum hpall.2
          rw [ht]
          show validLocalAfter ('.' :: ((e :: es) ++ t)) = true
          rw [List.cons_append]
          have hdot1 : isAlnumCI '.' = false := by decide
          have hdot2 : isSep '.' = true := by decide
          simp [validLocalAfter, hq.1, hq.2, hdot1, hdot2]

theorem joinDots_all_localChar : ∀ (parts : List Chars),
    (∀ p ∈ parts, p.all isAlnumCI = true) →
    (joinDots parts).all isLocalChar = true := by
  intro parts
  induction parts with
  | nil => intro _; rfl
  | cons p rest ih =>
    intro hp
    have hpl : p.all isLocalChar = true :=
      all_imp (hp p (by simp)) (fun c hc => by simp [isLocalChar, hc])
    cases rest with
    | nil => simpa [joinDots] using hpl
    | cons q rest2 =>
      rw [joinDots_cons]
      have hrest := ih (fun x hx => hp x (List.mem_cons_of_mem p hx))
      simp [List.all_append, hpl, hrest, isLocalChar, isSep]

/-- The tail of the pattern on the rendered local part: the whole local
run is consumed and captured. -/
theorem tailStage_render {s : Segments} (h : segWF s = true) :
    tailStage (localPart s) = some (groupsOf s).preg.postg.devg.tail := by
  rcases hls : s.localSeg with _ | ps
  · simp [localPart, hls, tailStage, groupsOf]
  · simp only [segWF, Bool.and_eq_true, hls] at h
    obtain ⟨⟨⟨⟨_, _⟩, _⟩, _⟩, hloc⟩ := h
    simp only [Bool.and_eq_true, decide_eq_true_eq] at hloc
    obtain ⟨⟨hlen, hall⟩, _⟩ := hloc
    have hparts : ∀ p ∈ ps.map lpartRender, p ≠ [] ∧ p.all isAlnumCI = true := by
      intro p hpmem
      obtain ⟨q, hqmem, rfl⟩ := List.mem_map.mp hpmem
      have hq : lpartWF q = true := by
        rw [List.all_eq_true] at hall
        exact hall q hqmem
      exact ⟨(lpartRender_wf hq).1, (lpartRender_wf hq).2.1⟩
    have hne : ps.map lpartRender ≠ [] := by
      cases ps with
      | nil => simp at hlen
      | cons a as => simp
    have hrun : (joinDots (ps.map lpartRender)).all isLocalChar = true :=
      joinDots_all_localChar _ (fun p hp => (hparts p hp).2)
    obtain ⟨htake, hdrop⟩ := scan_all hrun
    have hvl : validLocal (joinDots (ps.map lpartRender)) = true :=
      validLocal_joinDots _ hparts hne
    simp only [localPart, hls, tailStage, htake, hdrop]
    have hcond : (validLocal (joinDots (ps.map lpartRender)) &&
        List.all ([] : Chars) isSpace) = true := by
      simp [hvl]
    rw [if_pos hcond]
    simp [groupsOf, hls]

theorem trySep_sep {β : Type} (k : Chars → Option β) {c : Char} (r : Chars)
    (h : isSep c = true) : trySep k (c :: r) = firstSome [k r, k (c :: r)] := by
  simp [trySep, h]

theorem trySep_nosep {β : Type} (k : Chars → Option β) {c : Char} (r : Chars)
    (h : isSep c = false) : trySep k (c :: r) = k (c :: r) := by
  simp [trySep, h]

theorem optDigits_digits {β : Type} (k : Option String → Chars → Option β)
    {ds suffix : Chars} (hne : ds ≠ []) (hall : ds.all isDig = true)
    (hsuf : headNot isDig suffix) :
    optDigits k (ds ++ suffix) = k (some ⟨ds⟩) suffix := by
  obtain ⟨ht, hd⟩ := scan_split hsuf hall
  have hemp : ds.isEmpty = false := by
    cases ds with
    | nil => exact absurd rfl hne
    | cons a l => rfl
  simp [optDigits, ht, hd, hemp]

theorem optDigits_none {β : Type} (k : Option String → Chars → Option β)
    {cs : Chars} (h : headNot isDig cs) : optDigits k cs = k none cs := by
  cases cs with
  | nil => rfl
  | cons c r =>
    have hc : isDig c = false := h
    simp [optDigits, List.takeWhile_cons, hc]

theorem localPart_headNot_dig (s : Segments) : headNot isDig (localPart s) := by
  rcases hls : s.localSeg with _ | ps
  · simp [localPart, hls, headNot]
  · simp only [localPart, hls]
    show isDig '+' = false
    decide

theorem devLocal_headNot_dig (s : Segments) :
    headNot isDig (devPart s ++ localPart s) := by
  rcases hdev : s.dev with _ | ⟨t, n⟩
  · simp only [devPart, hdev, List.nil_append]
    exact localPart_headNot_dig s
  · simp only [devPart, hdev, List.cons_append]
    show isDig '.' = false
    decide

theorem postDevLocal_headNot_dig (s : Segments) :
    headNot isDig (postPart s ++ (devPart s ++ localPart s)) := by
  rcases hpost : s.post with _ | ⟨t, n⟩
  · simp only [postPart, hpost, List.nil_append]
    exact devLocal_headNot_dig s
  · simp only [postPart, hpost, List.cons_append]
    show isDig '.' = false
    decide

/-- The dev group and everything after it, evaluated on the rendered dev,
local parts. -/
theorem devStage_render {s : Segments} (h : segWF s = true) :
    devStage (devPart s ++ localPart s) = some (groupsOf s).preg.postg.devg := by
  have htail := tailStage_render h
  rcases hdev : s.dev with _ | ⟨t, n⟩
  · have hpres : devPresent (localPart s) = none := by
      rcases hls : s.localSeg with _ | ps
      · simp only [localPart, hls]
        rfl
      · simp only [localPart, hls]
        rfl
    simp only [devPart, hdev, List.nil_append, devStage]
    rw [hpres, htail]
    simp [firstSome, groupsOf, hdev]
  · obtain ⟨d0, drest, hnr⟩ : ∃ d0 drest, natReprL n = d0 :: drest := by
      rcases hh : natReprL n with _ | ⟨d0, dr⟩
      · exact absurd hh (natReprL_ne_nil n)
      · exact ⟨d0, dr, rfl⟩
    have hd0 : isDig d0 = true := by
      have hall := natReprL_all_dig n
      rw [hnr] at hall
      simp only [List.all_cons, Bool.and_eq_true] at hall
      exact hall.1
    have hpres : devPresent ('.' :: 'd' :: 'e' :: 'v' :: (natReprL n ++ localPart s)) =
        some (DevG.mk (some (String.mk ['d', 'e', 'v'])) (some (natReprS n))
          (groupsOf s).preg.postg.devg.tail) := by
      unfold devPresent
      rw [trySep_sep _ _ (by decide)]
      have hK : (matchCI ['d', 'e', 'v'] ('d' :: 'e' :: 'v' :: (natReprL n ++ localPart s))).bind
          (fun m => trySep (optDigits (fun nn cs3 =>
            (tailStage cs3).map (fun tg => DevG.mk (some (String.mk m.1)) nn tg))) m.2) =
          some (DevG.mk (some (String.mk ['d', 'e', 'v'])) (some (natReprS n))
            (groupsOf s).preg.postg.devg.tail) := by
        have hm : matchCI ['d', 'e', 'v'] ('d' :: 'e' :: 'v' :: (natReprL n ++ localPart s)) =
            some (['d', 'e', 'v'], natReprL n ++ localPart s) := rfl
        rw [hm]
        simp only [Option.some_bind]
        rw [hnr, List.cons_append, trySep_nosep _ _ (isDig_not_sep hd0), ← List.cons_append,
          ← hnr, optDigits_digits _ (natReprL_ne_nil n) (natReprL_all_dig n)
            (localPart_headNot_dig s), htail]
        rfl
      rw [hK]
      rfl
    simp only [devPart, hdev, List.cons_append, devStage]
    rw [hpres]
    simp [firstSome, groupsOf, hdev]

theorem firstSome_cons_some {α : Type} (a : α) (l : List (Option α)) :
    firstSome (some a :: l) = some a := rfl

theorem firstSome_cons_none {α : Type} (l : List (Option α)) :
    firstSome (none :: l) = firstSome l := rfl

/-- The post group and everything after it, evaluated on the rendered
post, dev, local parts. -/
theorem postStage_render {s : Segments} (h : segWF s = true) :
    postStage (postPart s ++ (devPart s ++ localPart s)) =
      some (groupsOf s).preg.postg := by
  have hdev := devStage_render h
  rcases hpost : s.post with _ | ⟨t, n⟩
  · have ha1 : postAlt1 (devPart s ++ localPart s) = none := by
      rcases hd : s.dev with _ | ⟨t2, n2⟩
      · rcases hls : s.localSeg with _ | ps
        · simp only [devPart, hd, localPart, hls, List.nil_append]
          rfl
        · simp only [devPart, hd, localPart, hls, List.nil_append]
          rfl
      · simp only [devPart, hd, List.cons_append]
        rfl
    have ha2 : postAlt2 (devPart s ++ localPart s) = none := by
      rcases hd : s.dev with _ | ⟨t2, n2⟩
      · rcases hls : s.localSeg with _ | ps
        · simp only [devPart, hd, localPart, hls, List.nil_append]
          rfl
        · simp only [devPart, hd, localPart, hls, List.nil_append]
          rfl
      · simp only [devPart, hd, List.cons_append]
        rfl
    simp only [postPart, hpost, List.nil_append, postStage]
    rw [ha1, ha2, hdev]
    simp [firstSome, groupsOf, hpost]
  · obtain ⟨d0, drest, hnr⟩ : ∃ d0 drest, natReprL n = d0 :: drest := by
      rcases hh : natReprL n with _ | ⟨d0, dr⟩
      · exact absurd hh (natReprL_ne_nil n)
      · exact ⟨d0, dr, rfl⟩
    have hd0 : isDig d0 = true := by
      have hall := natReprL_all_dig n
      rw [hnr] at hall
      simp only [List.all_cons, Bool.and_eq_true] at hall
      exact hall.1
    have halt2 : postAlt2
        ('.' :: 'p' :: 'o' :: 's' :: 't' :: (natReprL n ++ (devPart s ++ localPart s))) =
        some (PostG.mk (some (String.mk ['p', 'o', 's', 't'])) none (some (natReprS n))
          (groupsOf s).preg.postg.devg) := by
      unfold postAlt2
      rw [trySep_sep _ _ (by decide)]
      have hK : tryTags ["post", "rev", "r"] (fun txt cs2 =>
          trySep (optDigits (fun nn cs3 =>
            (devStage cs3).map (fun d => PostG.mk (some (String.mk txt)) none nn d))) cs2)
          ('p' :: 'o' :: 's' :: 't' :: (natReprL n ++ (devPart s ++ localPart s))) =
          some (PostG.mk (some (String.mk ['p', 'o', 's', 't'])) none (some (natReprS n))
            (groupsOf s).preg.postg.devg) := by
        unfold tryTags
        simp only [List.map_cons, List.map_nil]
        have hm : matchCI "post".data
            ('p' :: 'o' :: 's' :: 't' :: (natReprL n ++ (devPart s ++ localPart s))) =
            some (['p', 'o', 's', 't'], natReprL n ++ (devPart s ++ localPart s)) := rfl
        rw [hm]
        simp only [Option.some_bind]
        rw [hnr, List.cons_append, trySep_nosep _ _ (isDig_not_sep hd0), ← List.cons_append,
          ← hnr, optDigits_digits _ (natReprL_ne_nil n) (natReprL_all_dig n)
            (devLocal_headNot_dig s), hdev]
        rfl
      rw [hK]
      rfl
    simp only [postPart, hpost, List.cons_append, postStage]
    have ha1 : postAlt1
        ('.' :: 'p' :: 'o' :: 's' :: 't' :: (natReprL n ++ (devPart s ++ localPart s))) =
        none := rfl
    rw [ha1, halt2]
    rw [firstSome_cons_none, firstSome_cons_some]
    simp [groupsOf, hpost]

/-- The pre group and everything after it, evaluated on the rendered pre,
post, dev, local parts. -/
theorem preStage_render {s : Segments} (h : segWF s = true) :
    preStage (prePart s ++ (postPart s ++ (devPart s ++ localPart s))) =
      some (groupsOf s).preg := by
  have hpost := postStage_render h
  rcases hpre : s.pre with _ | ⟨t, n⟩
  · have hpres : prePresent (postPart s ++ (devPart s ++ localPart s)) = none := by
      rcases hp : s.post with _ | ⟨t2, n2⟩
      · rcases hd : s.dev with _ | ⟨t3, n3⟩
        · rcases hls : s.localSeg with _ | ps
          · simp only [postPart, hp, devPart, hd, localPart, hls, List.nil_append]
            rfl
          · simp only [postPart, hp, devPart, hd, localPart, hls, List.nil_append]
            rfl
        · simp only [postPart, hp, devPart, hd, List.nil_append, List.cons_append]
          rfl
      · simp only [postPart, hp, List.cons_append]
        rfl
    simp only [prePart, hpre, List.nil_append, preStage]
    rw [hpres, hpost]
    simp [firstSome, groupsOf, hpre]
  · obtain ⟨d0, drest, hnr⟩ : ∃ d0 drest, natReprL n = d0 :: drest := by
      rcases hh : natReprL n with _ | ⟨d0, dr⟩
      · exact absurd hh (natReprL_ne_nil n)
      · exact ⟨d0, dr, rfl⟩
    have hd0 : isDig d0 = true := by
      have hall := natReprL_all_dig n
      rw [hnr] at hall
      simp only [List.all_cons, Bool.and_eq_true] at hall
      exact hall.1
    have htag : (t == "a" || t == "b" || t == "rc") = true := by
      have h2 := h
      simp only [segWF, Bool.and_eq_true, hpre] at h2
      exact h2.1.1.1.2
    have hrest : ∀ (X : Chars), trySep (optDigits (fun nn cs3 =>
        (postStage cs3).map (fun p => PreG.mk (some (String.mk X)) nn p)))
        (natReprL n ++ (postPart s ++ (devPart s ++ localPart s))) =
        some (PreG.mk (some (String.mk X)) (some (natReprS n)) (groupsOf s).preg.postg) := by
      intro X
      rw [hnr, List.cons_append, trySep_nosep _ _ (isDig_not_sep hd0), ← List.cons_append,
        ← hnr, optDigits_digits _ (natReprL_ne_nil n) (natReprL_all_dig n)
          (postDevLocal_headNot_dig s), hpost]
      rfl
    rcases Bool.or_eq_true_iff.mp htag with hab | hrc
    · rcases Bool.or_eq_true_iff.mp hab with ha | hb
      · have ht : t = "a" := by simpa using ha
        subst ht
        have hpres : prePresent
            ('a' :: (natReprL n ++ (postPart s ++ (devPart s ++ localPart s)))) =
            some (PreG.mk (some (String.mk ['a'])) (some (natReprS n))
              (groupsOf s).preg.postg) := by
          unfold prePresent
          rw [trySep_nosep _ _ (by decide)]
          unfold tryTags preTags
          simp only [List.map_cons, List.map_nil]
          have hm : matchCI "a".data
              ('a' :: (natReprL n ++ (postPart s ++ (devPart s ++ localPart s)))) =
              some (['a'], natReprL n ++ (postPart s ++ (devPart s ++ localPart s))) := rfl
          rw [hm]
          simp only [Option.some_bind]
          rw [hrest]
          rfl
        have hshape : prePart s ++ (postPart s ++ (devPart s ++ localPart s)) =
            'a' :: (natReprL n ++ (postPart s ++ (devPart s ++ localPart s))) := by
          simp [prePart, hpre]
        rw [preStage, hshape, hpres, firstSome_cons_some]
        simp [groupsOf, hpre]
      · have ht : t = "b" := by simpa using hb
        subst ht
        have hpres : prePresent
            ('b' :: (natReprL n ++ (postPart s ++ (devPart s ++ localPart s)))) =
            some (PreG.mk (some (String.mk ['b'])) (some (natReprS n))
              (groupsOf s).preg.postg) := by
          unfold prePresent
          rw [trySep_nosep _ _ (by decide)]
          unfold tryTags preTags
          simp only [List.map_cons, List.map_nil]
          have hma : matchCI "a".data
              ('b' :: (natReprL n ++ (postPart s ++ (devPart s ++ localPart s)))) = none := rfl
          have hmb : matchCI "b".data
              ('b' :: (natReprL n ++ (postPart s ++ (devPart s ++ localPart s)))) =
              some (['b'], natReprL n ++ (postPart s ++ (devPart s ++ localPart s))) := rfl
          rw [hma, hmb]
          simp only [Option.some_bind, Option.none_bind]
          rw [firstSome_cons_none, hrest]
          rfl
        have hshape : prePart s ++ (postPart s ++ (devPart s ++ localPart s)) =
            'b' :: (natReprL n ++ (postPart s ++ (devPart s ++ localPart s))) := by
          simp [prePart, hpre]
        rw [preStage, hshape, hpres, firstSome_cons_some]
        simp [groupsOf, hpre]
    · have ht : t = "rc" := by simpa using hrc
      subst ht
      have hpres : prePresent
          ('r' :: 'c' :: (natReprL n ++ (postPart s ++ (devPart s ++ localPart s)))) =
          some (PreG.mk (some (String.mk ['r', 'c'])) (some (natReprS n))
            (groupsOf s).preg.postg) := by
        unfold prePresent
        rw [trySep_nosep _ _ (by decide)]
        unfold tryTags preTags
        simp only [List.map_cons, List.map_nil]
        have hma : matchCI "a".data
            ('r' :: 'c' :: (natReprL n ++ (postPart s ++ (devPart s ++ localPart s)))) =
            none := rfl
        have hmb : matchCI "b".data
            ('r' :: 'c' :: (natReprL n ++ (postPart s ++ (devPart s ++ localPart s)))) =
            none := rfl
        have hmc : matchCI "c".data
            ('r' :: 'c' :: (natReprL n ++ (postPart s ++ (devPart s ++ localPart s)))) =
            none := rfl
        have hmrc : matchCI "rc".data
            ('r' :: 'c' :: (natReprL n ++ (postPart s ++ (devPart s ++ localPart s)))) =
            some (['r', 'c'], natReprL n ++ (postPart s ++ (devPart s ++ localPart s))) := rfl
        rw [hma, hmb, hmc, hmrc]
        simp only [Option.some_bind, Option.none_bind]
        rw [firstSome_cons_none, firstSome_cons_none, firstSome_cons_none, hrest]
        rfl
      have hshape : prePart s ++ (postPart s ++ (devPart s ++ localPart s)) =
          'r' :: 'c' :: (natReprL n ++ (postPart s ++ (devPart s ++ localPart s))) := by
        simp [prePart, hpre]
      rw [preStage, hshape, hpres, firstSome_cons_some]
      simp [groupsOf, hpre]

theorem dotTail_nil : dotTail [] = [] := rfl

theorem dotTail_cons (r : Nat) (rs : List Nat) :
    dotTail (r :: rs) = '.' :: (natReprL r ++ dotTail rs) := rfl

theorem joinDots_natRepr (r0 : Nat) (rest : List Nat) :
    joinDots ((r0 :: rest).map natReprL) = natReprL r0 ++ dotTail rest := by
  induction rest generalizing r0 with
  | nil => simp [joinDots, dotTail_nil]
  | cons r1 rest2 ih =>
    rw [List.map_cons, List.map_cons, joinDots_cons, ← List.map_cons, ih r1, dotTail_cons]

theorem dotTail_headNot (rs : List Nat) {suffix : Chars}
    (hs : headNot isDig suffix) : headNot isDig (dotTail rs ++ suffix) := by
  cases rs with
  | nil => simpa [dotTail_nil] using hs
  | cons r rs2 =>
    rw [dotTail_cons, List.cons_append]
    show isDig '.' = false
    decide

theorem chunkHalt_ne_dot {c : Char} (hc : ¬c = '.') (X : Chars) :
    chunkHalt (c :: X) := by
  cases X with
  | nil => trivial
  | cons d r =>
    intro hcontra
    exact hc hcontra.1

theorem chunkHalt_dot_nodig {d : Char} (hd : isDig d = false) (X : Chars) :
    chunkHalt ('.' :: d :: X) := by
  intro hcontra
  rw [hcontra.2] at hd
  cases hd

theorem chunkLoopF_stop (fuel : Nat) {cs : Chars} (h : chunkHalt cs) :
    chunkLoopF fuel cs = ([], cs) := by
  cases fuel with
  | zero => rfl
  | succ f =>
    cases cs with
    | nil => rfl
    | cons a r =>
      cases r with
      | nil => rfl
      | cons b r2 =>
        have hcond : ¬(a = '.' ∧ isDig b = true) := h
        simp only [chunkLoopF]
        rw [if_neg hcond]

theorem dotTail_length (rs : List Nat) : rs.length ≤ (dotTail rs).length := by
  induction rs with
  | nil => simp [dotTail_nil]
  | cons a l ih =>
    rw [dotTail_cons]
    simp only [List.length_cons, List.length_append]
    have h2 : 1 ≤ (natReprL a).length := by
      rcases hh : natReprL a with _ | ⟨x, xs⟩
      · exact absurd hh (natReprL_ne_nil a)
      · simp
    omega

theorem chunkLoopF_go : ∀ (rs : List Nat) {suffix : Chars} (fuel : Nat),
    rs.length ≤ fuel → headNot isDig suffix → chunkHalt suffix →
    chunkLoopF fuel (dotTail rs ++ suffix) = (rs.map natReprS, suffix) := by
  intro rs
  induction rs with
  | nil =>
    intro suffix fuel _ hhead hhalt
    rw [dotTail_nil, List.nil_append, List.map_nil]
    exact chunkLoopF_stop fuel hhalt
  | cons r rs2 ih =>
    intro suffix fuel hlen hhead hhalt
    cases fuel with
    | zero => simp at hlen
    | succ f =>
      obtain ⟨d0, drest, hnr⟩ : ∃ d0 drest, natReprL r = d0 :: drest := by
        rcases hh : natReprL r with _ | ⟨d0, dr⟩
        · exact absurd hh (natReprL_ne_nil r)
        · exact ⟨d0, dr, rfl⟩
      have hd0 : isDig d0 = true := by
        have hall := natReprL_all_dig r
        rw [hnr] at hall
        simp only [List.all_cons, Bool.and_eq_true] at hall
        exact hall.1
      have hX : headNot isDig (dotTail rs2 ++ suffix) := dotTail_headNot rs2 hhead
      obtain ⟨htake, hdrop⟩ := scan_split hX (natReprL_all_dig r)
      rw [dotTail_cons, List.cons_append, List.append_assoc, hnr, List.cons_append]
      simp only [chunkLoopF]
      rw [if_pos (by simp [hd0])]
      rw [← List.cons_append, ← hnr]
      simp only [htake, hdrop]
      have hfle : rs2.length ≤ f := by
        simp only [List.length_cons] at hlen
        omega
      rw [ih f hfle hhead hhalt]
      simp [natReprS]

/-- Everything after the release on a rendered version starts with a tag
letter, a dot-then-letter, a plus, or is empty: never a digit, never a
dot-then-digit, never a bang. -/
theorem preSuffix_facts (s : Segments) (h : segWF s = true) :
    headNot isDig (prePart s ++ (postPart s ++ (devPart s ++ localPart s))) ∧
      chunkHalt (prePart s ++ (postPart s ++ (devPart s ++ localPart s))) ∧
      (∀ c r, prePart s ++ (postPart s ++ (devPart s ++ localPart s)) = c :: r → ¬c = '!') := by
  rcases hpre : s.pre with _ | ⟨t, n⟩
  · rw [prePart, hpre]
    rcases hpost : s.post with _ | ⟨t2, n2⟩
    · rw [postPart, hpost]
      rcases hdev : s.dev with _ | ⟨t3, n3⟩
      · rw [devPart, hdev]
        rcases hls : s.localSeg with _ | ps
        · rw [localPart, hls]
          exact ⟨trivial, trivial, fun c r hcr => by cases hcr⟩
        · rw [localPart, hls]
          refine ⟨by trivial, chunkHalt_ne_dot (by decide) _, ?_⟩
          intro c r hcr
          injection hcr with h1 _
          rw [← h1]
          decide
      · rw [devPart, hdev]
        simp only [List.nil_append, List.cons_append]
        refine ⟨by trivial, chunkHalt_dot_nodig (by decide) _, ?_⟩
        intro c r hcr
        injection hcr with h1 _
        rw [← h1]
        decide
    · rw [postPart, hpost]
      simp only [List.nil_append, List.cons_append]
      refine ⟨by trivial, chunkHalt_dot_nodig (by decide) _, ?_⟩
      intro c r hcr
      injection hcr with h1 _
      rw [← h1]
      decide
  · have htag : (t == "a" || t == "b" || t == "rc") = true := by
      have h2 := h
      simp only [segWF, Bool.and_eq_true, hpre] at h2
      exact h2.1.1.1.2
    rw [prePart, hpre]
    rcases Bool.or_eq_true_iff.mp htag with hab | hrc
    · rcases Bool.or_eq_true_iff.mp hab with ha | hb
      · have ht : t = "a" := by simpa using ha
        subst ht
        simp only [List.cons_append]
        refine ⟨by trivial, chunkHalt_ne_dot (by decide) _, ?_⟩
        intro c r hcr
        injection hcr with h1 _
        rw [← h1]
        decide
      · have ht : t = "b" := by simpa using hb
        subst ht
        simp only [List.cons_append]
        refine ⟨by trivial, chunkHalt_ne_dot (by decide) _, ?_⟩
        intro c r hcr
        injection hcr with h1 _
        rw [← h1]
        decide
    · have ht : t = "rc" := by simpa using hrc
      subst ht
      simp only [List.cons_append]
      refine ⟨by trivial, chunkHalt_ne_dot (by decide) _, ?_⟩
      intro c r hcr
      injection hcr with h1 _
      rw [← h1]
      decide

/-- The release segment and everything after it, for an arbitrary epoch
group. -/
theorem releaseStage_render {s : Segments} (h : segWF s = true) (ep : Option String) :
    releaseStage ep
      (relPart s ++ (prePart s ++ (postPart s ++ (devPart s ++ localPart s)))) =
      some (Groups.mk ep (s.release.map natReprS) (groupsOf s).preg) := by
  obtain ⟨r0, rest, hrel⟩ : ∃ r0 rest, s.release = r0 :: rest := by
    rcases hr : s.release with _ | ⟨r0, rest⟩
    · exfalso
      simp only [segWF, Bool.and_eq_true, hr] at h
      simp at h
    · exact ⟨r0, rest, rfl⟩
  obtain ⟨hhead, hhalt, _⟩ := preSuffix_facts s h
  have hXhead : headNot isDig
      (dotTail rest ++ (prePart s ++ (postPart s ++ (devPart s ++ localPart s)))) :=
    dotTail_headNot rest hhead
  have hshape : relPart s ++ (prePart s ++ (postPart s ++ (devPart s ++ localPart s))) =
      natReprL r0 ++ (dotTail rest ++ (prePart s ++ (postPart s ++ (devPart s ++ localPart s)))) := by
    rw [relPart, hrel, joinDots_natRepr, List.append_assoc]
  rw [hshape]
  obtain ⟨htake, hdrop⟩ := scan_split hXhead (natReprL_all_dig r0)
  have hemp : (natReprL r0).isEmpty = false := by
    rcases hh : natReprL r0 with _ | ⟨d0, dr⟩
    · exact absurd hh (natReprL_ne_nil r0)
    · rfl
  have hchunk : chunkHalt (prePart s ++ (postPart s ++ (devPart s ++ localPart s))) := hhalt
  have hloop := chunkLoopF_go rest
      (natReprL r0 ++ (dotTail rest ++ (prePart s ++ (postPart s ++ (devPart s ++ localPart s))))).length
      (by
        have h1 := dotTail_length rest
        simp only [List.length_append]
        omega)
      hhead hhalt
  unfold releaseStage
  simp only [htake, hdrop, hemp, Bool.false_eq_true, if_false, hloop]
  rw [preStage_render h]
  simp [hrel, natReprS, groupsOf]

theorem isDig_lowerChar_ne_v {c : Char} (h : isDig c = true) : ¬lowerChar c = 'v' := by
  rw [lowerChar_of_isDig h]
  intro heq
  rw [heq] at h
  cases h

theorem epochTry_none {cs : Chars}
    (htail : ∀ c r, cs.dropWhile isDig = c :: r → ¬c = '!') : epochTry cs = none := by
  unfold epochTry
  by_cases hemp : (cs.takeWhile isDig).isEmpty
  · rw [if_pos hemp]
  · rw [if_neg hemp]
    rcases hd : cs.dropWhile isDig with _ | ⟨c, r⟩
    · rfl
    · rw [bangCheck, if_neg (htail c r hd)]

/-- The whole anchored pattern on the canonical rendering of well-formed
segments: it matches and captures exactly the groups of groupsOf. -/
theorem regexMatch_render {s : Segments} (h : segWF s = true) :
    regexMatch (renderChars s) = some (groupsOf s) := by
  obtain ⟨r0, rest, hrel⟩ : ∃ r0 rest, s.release = r0 :: rest := by
    rcases hr : s.release with _ | ⟨r0, rest⟩
    · exfalso
      simp only [segWF, Bool.and_eq_true, hr] at h
      simp at h
    · exact ⟨r0, rest, rfl⟩
  obtain ⟨d0, drest, hnr⟩ : ∃ d0 drest, natReprL r0 = d0 :: drest := by
    rcases hh : natReprL r0 with _ | ⟨d0, dr⟩
    · exact absurd hh (natReprL_ne_nil r0)
    · exact ⟨d0, dr, rfl⟩
  have hd0 : isDig d0 = true := by
    have hall := natReprL_all_dig r0
    rw [hnr] at hall
    simp only [List.all_cons, Bool.and_eq_true] at hall
    exact hall.1
  obtain ⟨hhead, hhalt, hbang⟩ := preSuffix_facts s h
  have hXhead : headNot isDig
      (dotTail rest ++ (prePart s ++ (postPart s ++ (devPart s ++ localPart s)))) :=
    dotTail_headNot rest hhead
  have hsp : (natReprL r0 ++ (dotTail rest ++ (prePart s ++ (postPart s ++
      (devPart s ++ localPart s))))).dropWhile isSpace =
      natReprL r0 ++ (dotTail rest ++ (prePart s ++ (postPart s ++
        (devPart s ++ localPart s)))) := by
    rw [hnr, List.cons_append, List.dropWhile_cons]
    simp [isDig_not_space hd0]
  have hv : vStrip (natReprL r0 ++ (dotTail rest ++ (prePart s ++ (postPart s ++
      (devPart s ++ localPart s))))) =
      natReprL r0 ++ (dotTail rest ++ (prePart s ++ (postPart s ++
        (devPart s ++ localPart s)))) := by
    rw [hnr, List.cons_append, vStrip, if_neg (isDig_lowerChar_ne_v hd0)]
  have hrelshape : relPart s ++ (prePart s ++ (postPart s ++ (devPart s ++ localPart s))) =
      natReprL r0 ++ (dotTail rest ++ (prePart s ++ (postPart s ++
        (devPart s ++ localPart s)))) := by
    rw [relPart, hrel, joinDots_natRepr, List.append_assoc]
  by_cases he : s.epoch = 0
  · have hep : epochPart s = [] := by simp [epochPart, he]
    have hcs : renderChars s = natReprL r0 ++ (dotTail rest ++ (prePart s ++ (postPart s ++
        (devPart s ++ localPart s)))) := by
      rw [renderChars, hep, List.nil_append, List.append_assoc, List.append_assoc,
        List.append_assoc, hrelshape]
    have hnone : epochTry (natReprL r0 ++ (dotTail rest ++ (prePart s ++ (postPart s ++
        (devPart s ++ localPart s))))) = none := by
      apply epochTry_none
      intro c r hcr
      rw [(scan_split hXhead (natReprL_all_dig r0)).2] at hcr
      cases rest with
      | cons r1 rs2 =>
        rw [dotTail_cons, List.cons_append] at hcr
        injection hcr with h1 _
        rw [← h1]
        decide
      | nil =>
        rw [dotTail_nil, List.nil_append] at hcr
        exact hbang c r hcr
    rw [regexMatch, hcs, hsp, hv, hnone, firstSome_cons_none, ← hcs,
      show renderChars s = relPart s ++ (prePart s ++ (postPart s ++
        (devPart s ++ localPart s))) from by rw [hcs, hrelshape]]
    rw [releaseStage_render h none, firstSome_cons_some]
    simp [groupsOf, he]
  · have hep : epochPart s = natReprL s.epoch ++ ['!'] := by simp [epochPart, he]
    obtain ⟨e0, erest, hne0⟩ : ∃ e0 erest, natReprL s.epoch = e0 :: erest := by
      rcases hh : natReprL s.epoch with _ | ⟨e0, er⟩
      · exact absurd hh (natReprL_ne_nil s.epoch)
      · exact ⟨e0, er, rfl⟩
    have he0 : isDig e0 = true := by
      have hall := natReprL_all_dig s.epoch
      rw [hne0] at hall
      simp only [List.all_cons, Bool.and_eq_true] at hall
      exact hall.1
    have hcs : renderChars s = natReprL s.epoch ++ ('!' :: (relPart s ++ (prePart s ++
        (postPart s ++ (devPart s ++ localPart s))))) := by
      rw [renderChars, hep]
      simp only [List.append_assoc, List.singleton_append, List.cons_append,
        List.nil_append]
    have hsp2 : (natReprL s.epoch ++ ('!' :: (relPart s ++ (prePart s ++
        (postPart s ++ (devPart s ++ localPart s)))))).dropWhile isSpace =
        natReprL s.epoch ++ ('!' :: (relPart s ++ (prePart s ++
          (postPart s ++ (devPart s ++ localPart s))))) := by
      rw [hne0, List.cons_append, List.dropWhile_cons]
      simp [isDig_not_space he0]
    have hv2 : vStrip (natReprL s.epoch ++ ('!' :: (relPart s ++ (prePart s ++
        (postPart s ++ (devPart s ++ localPart s)))))) =
        natReprL s.epoch ++ ('!' :: (relPart s ++ (prePart s ++
          (postPart s ++ (devPart s ++ localPart s))))) := by
      rw [hne0, List.cons_append, vStrip, if_neg (isDig_lowerChar_ne_v he0)]
    have hbangT : headNot isDig ('!' :: (relPart s ++ (prePart s ++
        (postPart s ++ (devPart s ++ localPart s))))) := by
      show isDig '!' = false
      decide
    obtain ⟨htk, hdr⟩ := scan_split hbangT (natReprL_all_dig s.epoch)
    have hemp2 : (natReprL s.epoch).isEmpty = false := by
      rw [hne0]
      rfl
    have hton : epochTry (natReprL s.epoch ++ ('!' :: (relPart s ++ (prePart s ++
        (postPart s ++ (devPart s ++ localPart s)))))) =
        some (Groups.mk (some (natReprS s.epoch)) (s.release.map natReprS)
          (groupsOf s).preg) := by
      unfold epochTry
      simp only [htk, hdr, hemp2, Bool.false_eq_true, if_false]
      rw [bangCheck, if_pos rfl]
      exact releaseStage_render h (some (natReprS s.epoch))
    rw [regexMatch, hcs, hsp2, hv2, hton, firstSome_cons_some]
    simp [groupsOf, he]

theorem except_bind_ok {α β : Type} (a : α) (f : α → Except PyErr β) :
    (Except.ok a >>= f) = f a := rfl

theorem intAll_natReprS (rs : List Nat) : intAll (rs.map natReprS) = .ok rs := by
  induction rs with
  | nil => rfl
  | cons r rs ih =>
    rw [List.map_cons]
    simp only [intAll]
    rw [pyInt_natReprS, except_bind_ok, ih, except_bind_ok]
    rfl

theorem map_lowerChar_id {l : Chars} (h : l.all isLowerAlnum = true) :
    l.map lowerChar = l := by
  induction l with
  | nil => rfl
  | cons c cs ih =>
    simp only [List.all_cons, Bool.and_eq_true] at h
    rw [List.map_cons, isLowerAlnum_lowerChar h.1, ih h.2]

theorem splitSepsGo_no_sep : ∀ (p : Chars) (acc rest : Chars),
    p.all (fun c => !isSep c) = true →
    splitSepsGo acc (p ++ rest) = splitSepsGo (p.reverse ++ acc) rest := by
  intro p
  induction p with
  | nil => intro acc rest _; simp
  | cons c cs ih =>
    intro acc rest hall
    simp only [List.all_cons, Bool.and_eq_true] at hall
    have hc : isSep c = false := by simpa using hall.1
    rw [List.cons_append]
    simp only [splitSepsGo, hc, Bool.false_eq_true, if_false]
    rw [ih (c :: acc) rest hall.2]
    simp [List.append_assoc]

theorem splitSeps_joinDots : ∀ (parts : List Chars), parts ≠ [] →
    (∀ p ∈ parts, p.all (fun c => !isSep c) = true) →
    splitSeps (joinDots parts) = parts.map (fun p => (⟨p⟩ : String)) := by
  intro parts
  induction parts with
  | nil => intro h; exact absurd rfl h
  | cons p rest ih =>
    intro _ hall
    cases rest with
    | nil =>
      show splitSepsGo [] (joinDots [p]) = [⟨p⟩]
      have hjp : joinDots [p] = p ++ [] := by simp [joinDots]
      rw [hjp, splitSepsGo_no_sep p [] [] (hall p (by simp))]
      simp [splitSepsGo]
    | cons q rest2 =>
      show splitSepsGo [] (joinDots (p :: q :: rest2)) = _
      rw [joinDots_cons, splitSepsGo_no_sep p [] _ (hall p (by simp))]
      have hdot : isSep '.' = true := by decide
      simp only [splitSepsGo, hdot, if_true]
      have hih := ih (by simp) (fun x hx => hall x (List.mem_cons_of_mem p hx))
      rw [show splitSepsGo [] (joinDots (q :: rest2)) = splitSeps (joinDots (q :: rest2)) from rfl,
        hih]
      simp

theorem lpart_roundtrip {p : LPart} (h : lpartWF p = true) :
    (if pyIsDigit ⟨lpartRender p⟩ then LPart.num (natOfDigits (lpartRender p))
     else LPart.str (lowerStr ⟨lpartRender p⟩)) = p := by
  cases p with
  | num n =>
    have hdig : pyIsDigit ⟨natReprL n⟩ = true := by
      simp only [pyIsDigit, Bool.and_eq_true]
      constructor
      · have := natReprL_ne_nil n
        simpa [List.isEmpty_iff] using this
      · exact natReprL_all_dig n
    simp only [lpartRender, hdig, if_true, natOfDigits_natReprL]
  | str s =>
    simp only [lpartWF, Bool.and_eq_true] at h
    obtain ⟨⟨hne, hall⟩, hnd⟩ := h
    have hdig : pyIsDigit ⟨s.data⟩ = false := by
      simp only [pyIsDigit]
      cases hd : s.data.all isDig with
      | false => simp
      | true => exact absurd hd (by simpa using hnd)
    simp only [lpartRender, hdig, Bool.false_eq_true, if_false, lowerStr]
    rw [show (⟨s.data⟩ : String).data = s.data from rfl, map_lowerChar_id hall]

theorem parseLocalVersion_render {ps : List LPart}
    (hhead : (match ps with | p :: _ => lpartTruthy p | [] => false) = true)
    (hlen2 : 2 ≤ ps.length) (hall : ps.all lpartWF = true) :
    parseLocalVersion ⟨joinDots (ps.map lpartRender)⟩ = some ps := by
  have hpartswf : ∀ q ∈ ps, lpartWF q = true := by
    rw [List.all_eq_true] at hall
    exact hall
  have hne : ps.map lpartRender ≠ [] := by
    cases ps with
    | nil => simp at hlen2
    | cons a l => simp
  have hsepfree : ∀ p ∈ ps.map lpartRender, p.all (fun c => !isSep c) = true := by
    intro p hp
    obtain ⟨q, hq, rfl⟩ := List.mem_map.mp hp
    exact (lpartRender_wf (hpartswf q hq)).2.2
  unfold parseLocalVersion
  rw [show (⟨joinDots (ps.map lpartRender)⟩ : String).data = joinDots (ps.map lpartRender)
    from rfl]
  rw [splitSeps_joinDots _ hne hsepfree]
  rw [List.map_map, List.map_map]
  have hmapid : ps.map (((fun p => if pyIsDigit p then LPart.num (natOfDigits p.data)
      else LPart.str (lowerStr p)) ∘ (fun p => (⟨p⟩ : String))) ∘ lpartRender) = ps := by
    have : ∀ q ∈ ps, (((fun p => if pyIsDigit p then LPart.num (natOfDigits p.data)
        else LPart.str (lowerStr p)) ∘ (fun p => (⟨p⟩ : String))) ∘ lpartRender) q = id q := by
      intro q hq
      simp only [Function.comp_apply, id_eq]
      exact lpart_roundtrip (hpartswf q hq)
    rw [List.map_congr_left this, List.map_id]
  rw [hmapid]
  cases ps with
  | nil => simp at hlen2
  | cons a l =>
    have hta : lpartTruthy a = true := hhead
    simp [hta]

theorem parseLetterVersion_tag_num {t : String} (n : Nat)
    (ht : pyTruthyS (some t) = true) :
    parseLetterVersion (some t) (some (natReprS n)) =
      .ok (some (normalizeTag (lowerStr t), n)) := by
  have hp := pyInt_natReprS n
  simp only [parseLetterVersion, ht, Bool.not_true, Bool.false_and, Bool.false_eq_true,
    if_false, if_true, hp, Option.getD]

theorem parseLetter_pre_render {t : String} (ht : t = "a" ∨ t = "b" ∨ t = "rc")
    (n : Nat) : parseLetterVersion (some t) (some (natReprS n)) = .ok (some (t, n)) := by
  rcases ht with rfl | rfl | rfl <;> exact parseLetterVersion_tag_num n (by decide)

theorem parseLetter_post_render (n : Nat) :
    parseLetterVersion (some "post") (some (natReprS n)) = .ok (some ("post", n)) :=
  parseLetterVersion_tag_num n (by decide)

theorem parseLetter_dev_render (n : Nat) :
    parseLetterVersion (some "dev") (some (natReprS n)) = .ok (some ("dev", n)) :=
  parseLetterVersion_tag_num n (by decide)

theorem versionInit_groupsOf {s : Segments} {k : Key}
    (hwf : segWF s = true) (hk : cmpkey s = .ok k) :
    versionInit (groupsOf s) = .ok ⟨s, k⟩ := by
  simp only [segWF, Bool.and_eq_true] at hwf
  obtain ⟨⟨⟨⟨hrel0, hpre0⟩, hpost0⟩, hdev0⟩, hloc0⟩ := hwf
  have hep : epochInt (groupsOf s).epoch = Except.ok s.epoch := by
    by_cases h0 : s.epoch = 0
    · simp [groupsOf, epochInt, h0]
      rfl
    · simp [groupsOf, epochInt, h0, pyInt_natReprS]
  have hrel : intAll (groupsOf s).releaseChunks = Except.ok s.release := by
    simp [groupsOf, intAll_natReprS]
  have hpre : parseLetterVersion (groupsOf s).preg.pre_l (groupsOf s).preg.pre_n
      = Except.ok s.pre := by
    cases hsp : s.pre with
    | none => simp only [groupsOf, hsp]; rfl
    | some tn =>
      obtain ⟨t, n⟩ := tn
      rw [hsp] at hpre0
      simp only [Bool.or_eq_true, beq_iff_eq] at hpre0
      rw [or_assoc] at hpre0
      simp only [groupsOf, hsp]
      exact parseLetter_pre_render hpre0 n
  have hpost : parseLetterVersion (some ((groupsOf s).preg.postg.post_l.getD ""))
      (some ((groupsOf s).preg.postg.post_n1.getD ((groupsOf s).preg.postg.post_n2.getD "")))
      = Except.ok s.post := by
    cases hsp : s.post with
    | none => simp only [groupsOf, hsp]; rfl
    | some tn =>
      obtain ⟨t, n⟩ := tn
      rw [hsp] at hpost0
      simp only [beq_iff_eq] at hpost0
      subst hpost0
      simp only [groupsOf, hsp, Option.getD_some, Option.getD_none]
      exact parseLetter_post_render n
  have hdev : parseLetterVersion (some ((groupsOf s).preg.postg.devg.dev_l.getD ""))
      (some ((groupsOf s).preg.postg.devg.dev_n.getD ""))
      = Except.ok s.dev := by
    cases hsd : s.dev with
    | none => simp only [groupsOf, hsd]; rfl
    | some tn =>
      obtain ⟨t, n⟩ := tn
      rw [hsd] at hdev0
      simp only [beq_iff_eq] at hdev0
      subst hdev0
      simp only [groupsOf, hsd, Option.getD_some]
      exact parseLetter_dev_render n
  have hloc : parseLocalVersion ((groupsOf s).preg.postg.devg.tail.loc.getD "")
      = s.localSeg := by
    cases hsl : s.localSeg with
    | none => simp only [groupsOf, hsl, Option.getD_none]; rfl
    | some ps =>
      rw [hsl] at hloc0
      simp only [Bool.and_eq_true, decide_eq_true_eq] at hloc0
      obtain ⟨⟨hlen, hall⟩, hhead⟩ := hloc0
      simp only [groupsOf, hsl, Option.getD_some]
      exact parseLocalVersion_render hhead hlen hall
  simp only [versionInit, hep, hrel, hpre, hpost, hdev, hloc, except_bind_ok, hk]
  rfl

/- ------------------------------------------------------------------
Inversion of the matcher: every successful match produces groups of the
shapes described by GroupsP.
------------------------------------------------------------------- -/

theorem firstSome2_inv {α : Type} {a b : Option α} {x : α}
    (h : firstSome [a, b] = some x) : a = some x ∨ (a = none ∧ b = some x) := by
  cases a with
  | some y =>
    rw [firstSome_cons_some] at h
    exact Or.inl h
  | none =>
    rw [firstSome_cons_none] at h
    cases b with
    | some z =>
      rw [firstSome_cons_some] at h
      exact Or.inr ⟨rfl, h⟩
    | none =>
      rw [firstSome_cons_none] at h
      exact absurd h (by simp [firstSome])

theorem firstSome3_inv {α : Type} {a b c : Option α} {x : α}
    (h : firstSome [a, b, c] = some x) :
    a = some x ∨ (a = none ∧ b = some x) ∨ (a = none ∧ b = none ∧ c = some x) := by
  cases a with
  | some y =>
    rw [firstSome_cons_some] at h
    exact Or.inl h
  | none =>
    rw [firstSome_cons_none] at h
    rcases firstSome2_inv h with h1 | ⟨hb, h2⟩
    · exact Or.inr (Or.inl ⟨rfl, h1⟩)
    · exact Or.inr (Or.inr ⟨rfl, hb, h2⟩)

theorem takeWhile_all {α : Type} (p : α → Bool) : ∀ l : List α,
    (l.takeWhile p).all p = true := by
  intro l
  induction l with
  | nil => rfl
  | cons c r ih =>
    by_cases hc : p c = true
    · simp [List.takeWhile_cons, hc, ih]
    · simp [List.takeWhile_cons, hc]

theorem matchCI_inv : ∀ (p cs : Chars) {m : Chars × Chars},
    matchCI p cs = some m → m.1.map lowerChar = p := by
  intro p
  induction p with
  | nil =>
    intro cs m h
    simp only [matchCI] at h
    cases h
    rfl
  | cons a ps ih =>
    intro cs m h
    cases cs with
    | nil => simp [matchCI] at h
    | cons c r =>
      simp only [matchCI] at h
      by_cases hc : lowerChar c = a
      · rw [if_pos hc] at h
        rw [Option.map_eq_some'] at h
        obtain ⟨m2, hm2, hm⟩ := h
        subst hm
        show List.map lowerChar (c :: m2.1) = a :: ps
        rw [List.map_cons, hc, ih r hm2]
      · rw [if_neg hc] at h
        cases h

theorem trySep_inv {β : Type} {P : β → Prop} {k : Chars → Option β}
    (hk : ∀ cs b, k cs = some b → P b) :
    ∀ cs b, trySep k cs = some b → P b := by
  intro cs b h
  cases cs with
  | nil => exact hk [] b h
  | cons c r =>
    by_cases hc : isSep c = true
    · rw [trySep_sep k r hc] at h
      rcases firstSome2_inv h with h1 | ⟨_, h2⟩
      · exact hk r b h1
      · exact hk (c :: r) b h2
    · have hcf : isSep c = false := by
        cases hb : isSep c
        · rfl
        · exact absurd hb hc
      rw [trySep_nosep k r hcf] at h
      exact hk (c :: r) b h

theorem optDigits_inv {β : Type} {P : β → Prop} {k : Option String → Chars → Option β}
    (hk : ∀ n cs2 b,
      (n = none ∨ ∃ ds, n = some (String.mk ds) ∧ ds ≠ [] ∧ ds.all isDig = true) →
      k n cs2 = some b → P b) :
    ∀ cs b, optDigits k cs = some b → P b := by
  intro cs b h
  simp only [optDigits] at h
  by_cases he : (cs.takeWhile isDig).isEmpty = true
  · rw [if_pos he] at h
    exact hk none cs b (Or.inl rfl) h
  · rw [if_neg he] at h
    refine hk _ _ b (Or.inr ⟨cs.takeWhile isDig, rfl, ?_, takeWhile_all _ _⟩) h
    intro hnil
    rw [hnil] at he
    exact he rfl

theorem tryTags_inv {β : Type} {k : Chars → Chars → Option β} : ∀ (tags : List String),
    ∀ {cs : Chars} {b : β}, tryTags tags k cs = some b →
      ∃ t, t ∈ tags ∧ ∃ m : Chars × Chars, matchCI t.data cs = some m ∧ k m.1 m.2 = some b := by
  intro tags
  induction tags with
  | nil => intro cs b h; exact absurd h (by simp [tryTags, firstSome])
  | cons t ts ih =>
    intro cs b h
    simp only [tryTags, List.map_cons] at h
    cases hft : (matchCI t.data cs).bind (fun m => k m.1 m.2) with
    | some y =>
      rw [hft, firstSome_cons_some] at h
      injection h with h
      subst h
      obtain ⟨m, hm1, hm2⟩ := Option.bind_eq_some.mp hft
      exact ⟨t, List.mem_cons_self t ts, m, hm1, hm2⟩
    | none =>
      rw [hft, firstSome_cons_none] at h
      obtain ⟨t2, ht2, hm⟩ := ih (show tryTags ts k cs = some b from h)
      exact ⟨t2, List.mem_cons_of_mem t ht2, hm⟩

theorem tailStage_inv : ∀ {cs : Chars} {t : TailG}, tailStage cs = some t → TailGP t := by
  intro cs t h
  cases cs with
  | nil =>
    cases h
    exact Or.inl rfl
  | cons c rest =>
    simp only [tailStage] at h
    by_cases hc : c = '+'
    · rw [if_pos hc] at h
      by_cases hv : (validLocal (rest.takeWhile isLocalChar) &&
          (rest.dropWhile isLocalChar).all isSpace) = true
      · rw [if_pos hv] at h
        cases h
        simp only [Bool.and_eq_true] at hv
        exact Or.inr ⟨rest.takeWhile isLocalChar, rfl, hv.1⟩
      · rw [if_neg hv] at h
        cases h
    · rw [if_neg hc] at h
      by_cases hs : ((c :: rest).all isSpace) = true
      · rw [if_pos hs] at h
        cases h
        exact Or.inl rfl
      · rw [if_neg hs] at h
        cases h

theorem devPresent_inv {cs : Chars} {d : DevG} (h : devPresent cs = some d) :
    DevShape d := by
  unfold devPresent at h
  refine trySep_inv ?_ cs d h
  intro cs1 b hb
  obtain ⟨m, hm1, hm2⟩ := Option.bind_eq_some.mp hb
  have hmap := matchCI_inv _ cs1 hm1
  refine trySep_inv ?_ m.2 b hm2
  intro cs2 b2 hb2
  refine optDigits_inv ?_ cs2 b2 hb2
  intro n cs3 b3 hn hb3
  obtain ⟨t, ht1, ht2⟩ := Option.map_eq_some'.mp hb3
  subst ht2
  exact ⟨⟨m.1, rfl, hmap, hn⟩, tailStage_inv ht1⟩

theorem devStage_inv {cs : Chars} {d : DevG} (h : devStage cs = some d) : DevGP d := by
  unfold devStage at h
  rcases firstSome2_inv h with h1 | ⟨_, h2⟩
  · obtain ⟨hshape, htail⟩ := devPresent_inv h1
    exact ⟨Or.inr hshape, htail⟩
  · obtain ⟨t, ht1, ht2⟩ := Option.map_eq_some'.mp h2
    subst ht2
    exact ⟨Or.inl ⟨rfl, rfl⟩, tailStage_inv ht1⟩

theorem postAlt1_inv {cs : Chars} {p : PostG} (h : postAlt1 cs = some p) :
    PostShape1 p := by
  cases cs with
  | nil => simp [postAlt1] at h
  | cons c r =>
    simp only [postAlt1] at h
    by_cases hc : c = '-'
    · rw [if_pos hc] at h
      by_cases he : (r.takeWhile isDig).isEmpty = true
      · rw [if_pos he] at h
        cases h
      · rw [if_neg he] at h
        obtain ⟨d, hd1, hd2⟩ := Option.map_eq_some'.mp h
        subst hd2
        refine ⟨⟨rfl, rfl, r.takeWhile isDig, rfl, ?_, takeWhile_all _ _⟩, devStage_inv hd1⟩
        intro hnil
        rw [hnil] at he
        exact he rfl
    · rw [if_neg hc] at h
      cases h

theorem postAlt2_inv {cs : Chars} {p : PostG} (h : postAlt2 cs = some p) :
    PostShape2 p := by
  unfold postAlt2 at h
  refine trySep_inv ?_ cs p h
  intro cs1 b hb
  obtain ⟨t, ht, m, hm1, hm2⟩ := tryTags_inv _ hb
  have hmap := matchCI_inv t.data cs1 hm1
  refine trySep_inv ?_ m.2 b hm2
  intro cs2 b2 hb2
  refine optDigits_inv ?_ cs2 b2 hb2
  intro n cs3 b3 hn hb3
  obtain ⟨d, hd1, hd2⟩ := Option.map_eq_some'.mp hb3
  subst hd2
  refine ⟨⟨m.1, rfl, rfl, ?_, hn⟩, devStage_inv hd1⟩
  have ht3 : t = "post" ∨ t = "rev" ∨ t = "r" := by
    simpa using ht
  rcases ht3 with rfl | rfl | rfl
  · exact Or.inl hmap
  · exact Or.inr (Or.inl hmap)
  · exact Or.inr (Or.inr hmap)

theorem postStage_inv {cs : Chars} {p : PostG} (h : postStage cs = some p) : PostGP p := by
  unfold postStage at h
  rcases firstSome3_inv h with h1 | ⟨_, h2⟩ | ⟨_, _, h3⟩
  · obtain ⟨hshape, hdev⟩ := postAlt1_inv h1
    exact ⟨Or.inr (Or.inl hshape), hdev⟩
  · obtain ⟨hshape, hdev⟩ := postAlt2_inv h2
    exact ⟨Or.inr (Or.inr hshape), hdev⟩
  · obtain ⟨d, hd1, hd2⟩ := Option.map_eq_some'.mp h3
    subst hd2
    exact ⟨Or.inl ⟨rfl, rfl, rfl⟩, devStage_inv hd1⟩

theorem prePresent_inv {cs : Chars} {g : PreG} (h : prePresent cs = some g) :
    PreShape g := by
  unfold prePresent at h
  refine trySep_inv ?_ cs g h
  intro cs1 b hb
  obtain ⟨t, ht, m, hm1, hm2⟩ := tryTags_inv _ hb
  have hmap := matchCI_inv t.data cs1 hm1
  refine trySep_inv ?_ m.2 b hm2
  intro cs2 b2 hb2
  refine optDigits_inv ?_ cs2 b2 hb2
  intro n cs3 b3 hn hb3
  obtain ⟨pg, hp1, hp2⟩ := Option.map_eq_some'.mp hb3
  subst hp2
  exact ⟨⟨m.1, rfl, ⟨t, ht, hmap⟩, hn⟩, postStage_inv hp1⟩

theorem preStage_inv {cs : Chars} {g : PreG} (h : preStage cs = some g) : PreGP g := by
  unfold preStage at h
  rcases firstSome2_inv h with h1 | ⟨_, h2⟩
  · obtain ⟨hshape, hpost⟩ := prePresent_inv h1
    exact ⟨Or.inr hshape, hpost⟩
  · obtain ⟨pg, hp1, hp2⟩ := Option.map_eq_some'.mp h2
    subst hp2
    exact ⟨Or.inl ⟨rfl, rfl⟩, postStage_inv hp1⟩

theorem chunkLoopF_chunks : ∀ (f : Nat) (cs : Chars) (ch : String),
    ch ∈ (chunkLoopF f cs).1 → ch.data ≠ [] ∧ ch.data.all isDig = true := by
  intro f
  induction f with
  | zero =>
    intro cs ch hch
    simp [chunkLoopF] at hch
  | succ f ih =>
    intro cs ch hch
    rcases cs with _ | ⟨c, _ | ⟨d, r⟩⟩
    · simp [chunkLoopF] at hch
    · simp [chunkLoopF] at hch
    · simp only [chunkLoopF] at hch
      by_cases hcd : c = '.' ∧ isDig d = true
      · rw [if_pos hcd] at hch
        simp only [List.mem_cons] at hch
        rcases hch with rfl | hch
        · refine ⟨?_, takeWhile_all _ _⟩
          show ((d :: r).takeWhile isDig) ≠ []
          simp [List.takeWhile_cons, hcd.2]
        · exact ih _ ch hch
      · rw [if_neg hcd] at hch
        simp at hch

theorem releaseStage_inv {ep : Option String} {cs : Chars} {g : Groups}
    (h : releaseStage ep cs = some g) : GroupsP g := by
  simp only [releaseStage] at h
  by_cases he : (cs.takeWhile isDig).isEmpty = true
  · rw [if_pos he] at h
    cases h
  · rw [if_neg he] at h
    obtain ⟨p, hp1, hp2⟩ := Option.map_eq_some'.mp h
    subst hp2
    refine ⟨?_, by simp, preStage_inv hp1⟩
    intro ch hch
    rcases List.mem_cons.mp hch with rfl | hch
    · refine ⟨?_, takeWhile_all _ _⟩
      intro hnil
      rw [show (String.mk (cs.takeWhile isDig)).data = cs.takeWhile isDig from rfl] at hnil
      rw [hnil] at he
      exact he rfl
    · exact chunkLoopF_chunks _ _ ch hch

theorem epochTry_inv {cs : Chars} {g : Groups} (h : epochTry cs = some g) : GroupsP g := by
  simp only [epochTry] at h
  by_cases he : (cs.takeWhile isDig).isEmpty = true
  · rw [if_pos he] at h
    cases h
  · rw [if_neg he] at h
    rcases hrest : cs.dropWhile isDig with _ | ⟨c, r⟩
    · rw [hrest] at h
      simp [bangCheck] at h
    · rw [hrest] at h
      simp only [bangCheck] at h
      by_cases hc : c = '!'
      · rw [if_pos hc] at h
        exact releaseStage_inv h
      · rw [if_neg hc] at h
        cases h

theorem regexMatch_inv {cs : Chars} {g : Groups} (h : regexMatch cs = some g) : GroupsP g := by
  simp only [regexMatch] at h
  rcases firstSome2_inv h with h1 | ⟨_, h2⟩
  · exact epochTry_inv h1
  · exact releaseStage_inv h2

theorem char_toNat_ofNat {n : Nat} (h : n.isValidChar) : (Char.ofNat n).toNat = n := by
  unfold Char.ofNat
  rw [dif_pos h]
  rfl

theorem isAlnumCI_not_sep {c : Char} (h : isAlnumCI c = true) : isSep c = false := by
  simp only [isAlnumCI, isDig, Bool.or_eq_true, decide_eq_true_eq] at h
  simp only [isSep, decide_eq_false_iff_not]
  omega

theorem isAlnumCI_lower {c : Char} (h : isAlnumCI c = true) :
    isLowerAlnum (lowerChar c) = true := by
  simp only [isAlnumCI, isDig, Bool.or_eq_true, decide_eq_true_eq] at h
  rcases h with (h | h) | h
  · rw [lowerChar, if_neg (by omega)]
    simp only [isLowerAlnum, isDig, Bool.or_eq_true, decide_eq_true_eq]
    omega
  · rw [lowerChar, if_neg (by omega)]
    simp only [isLowerAlnum, isDig, Bool.or_eq_true, decide_eq_true_eq]
    omega
  · rw [lowerChar, if_pos (by omega)]
    have hv : (c.toNat + 32).isValidChar := Or.inl (by omega)
    simp only [isLowerAlnum, isDig, Bool.or_eq_true, decide_eq_true_eq,
      char_toNat_ofNat hv]
    omega

theorem isDig_lowerChar (c : Char) : isDig (lowerChar c) = isDig c := by
  by_cases h : 65 ≤ c.toNat ∧ c.toNat ≤ 90
  · rw [lowerChar, if_pos h]
    have hv : (c.toNat + 32).isValidChar := Or.inl (by omega)
    have h1 : ¬(48 ≤ c.toNat + 32 ∧ c.toNat + 32 ≤ 57) := by omega
    have h2 : ¬(48 ≤ c.toNat ∧ c.toNat ≤ 57) := by omega
    simp only [isDig, char_toNat_ofNat hv]
    rw [decide_eq_false h1, decide_eq_false h2]
  · rw [lowerChar, if_neg h]

theorem splitSepsGo_valid : ∀ (n : Nat) (l : Chars), l.length ≤ n → ∀ acc : Chars,
    acc ≠ [] → acc.all isAlnumCI = true → validLocalAfter l = true →
    ∀ p ∈ splitSepsGo acc l, p.data ≠ [] ∧ p.data.all isAlnumCI = true := by
  intro n
  induction n with
  | zero =>
    intro l hl acc hne hacc _ p hp
    rcases l with _ | ⟨c, r⟩
    · simp only [splitSepsGo, List.mem_singleton] at hp
      subst hp
      refine ⟨by simpa using hne, ?_⟩
      rw [show (String.mk acc.reverse).data = acc.reverse from rfl, List.all_eq_true]
      intro x hx
      rw [List.all_eq_true] at hacc
      exact hacc x (List.mem_reverse.mp hx)
    · simp at hl
  | succ n ih =>
    intro l hl acc hne hacc hval p hp
    rcases l with _ | ⟨c, r⟩
    · simp only [splitSepsGo, List.mem_singleton] at hp
      subst hp
      refine ⟨by simpa using hne, ?_⟩
      rw [show (String.mk acc.reverse).data = acc.reverse from rfl, List.all_eq_true]
      intro x hx
      rw [List.all_eq_true] at hacc
      exact hacc x (List.mem_reverse.mp hx)
    · rcases r with _ | ⟨d, rest⟩
      · have hc : isAlnumCI c = true := hval
        have hcsep : isSep c = false := isAlnumCI_not_sep hc
        simp only [splitSepsGo, hcsep, Bool.false_eq_true, if_false,
          List.mem_singleton] at hp
        subst hp
        refine ⟨by simp, ?_⟩
        rw [show (String.mk (c :: acc).reverse).data = (c :: acc).reverse from rfl,
          List.all_eq_true]
        intro x hx
        rcases List.mem_cons.mp (List.mem_reverse.mp hx) with rfl | h0
        · exact hc
        · rw [List.all_eq_true] at hacc
          exact hacc x h0
      · simp only [validLocalAfter, Bool.or_eq_true, Bool.and_eq_true] at hval
        rcases hval with ⟨hc, hafter⟩ | ⟨⟨⟨_, hsep⟩, hd⟩, hafter⟩
        · have hcsep : isSep c = false := isAlnumCI_not_sep hc
          simp only [splitSepsGo, hcsep, Bool.false_eq_true, if_false] at hp
          refine ih (d :: rest) ?_ (c :: acc) (by simp)
            (by simp [List.all_cons, hc, hacc]) hafter p hp
          simp only [List.length_cons] at hl ⊢
          omega
        · simp only [splitSepsGo, hsep, if_true] at hp
          rcases List.mem_cons.mp hp with rfl | hp2
          · refine ⟨by simpa using hne, ?_⟩
            rw [show (String.mk acc.reverse).data = acc.reverse from rfl, List.all_eq_true]
            intro x hx
            rw [List.all_eq_true] at hacc
            exact hacc x (List.mem_reverse.mp hx)
          · have hdsep : isSep d = false := isAlnumCI_not_sep hd
            simp only [splitSepsGo, hdsep, Bool.false_eq_true, if_false] at hp2
            refine ih rest ?_ [d] (by simp) (by simp [List.all_cons, hd]) hafter p hp2
            simp only [List.length_cons] at hl
            omega

theorem splitSeps_valid {run : Chars} (h : validLocal run = true) :
    ∀ p ∈ splitSeps run, p.data ≠ [] ∧ p.data.all isAlnumCI = true := by
  rcases run with _ | ⟨c, rest⟩
  · simp [validLocal] at h
  · simp only [validLocal, Bool.and_eq_true] at h
    obtain ⟨hc, hafter⟩ := h
    intro p hp
    have hcsep : isSep c = false := isAlnumCI_not_sep hc
    simp only [splitSeps, splitSepsGo, hcsep, Bool.false_eq_true, if_false] at hp
    exact splitSepsGo_valid rest.length rest (le_refl _) [c] (by simp)
      (by simp [List.all_cons, hc]) hafter p hp

theorem parseLocalVersion_inv {run : Chars} (hv : validLocal run = true)
    {ps : List LPart} (h : parseLocalVersion (String.mk run) = some ps) :
    ps.all lpartWF = true ∧ ∃ q qs2, ps = q :: qs2 ∧ lpartTruthy q = true := by
  have hparts := splitSeps_valid hv
  have hwf : ∀ q ∈ (splitSeps run).map (fun p =>
      if pyIsDigit p then LPart.num (natOfDigits p.data) else LPart.str (lowerStr p)),
      lpartWF q = true := by
    intro q hq
    obtain ⟨p, hp, rfl⟩ := List.mem_map.mp hq
    obtain ⟨hne, hall⟩ := hparts p hp
    by_cases hd : pyIsDigit p = true
    · simp [hd, lpartWF]
    · have hd2 : pyIsDigit p = false := by
        cases hb : pyIsDigit p
        · rfl
        · exact absurd hb hd
      simp only [hd2, Bool.false_eq_true, if_false, lpartWF, Bool.and_eq_true]
      have hlow : (lowerStr p).data = p.data.map lowerChar := rfl
      refine ⟨⟨?_, ?_⟩, ?_⟩
      · simp [hlow, List.isEmpty_iff, hne]
      · rw [hlow, List.all_eq_true]
        intro x hx
        obtain ⟨y, hy, rfl⟩ := List.mem_map.mp hx
        rw [List.all_eq_true] at hall
        exact isAlnumCI_lower (hall y hy)
      · have hnd : p.data.all isDig = false := by
          cases hb : p.data.all isDig
          · rfl
          · exfalso
            rw [pyIsDigit, hb] at hd2
            simp [List.isEmpty_iff, hne] at hd2
        rw [hlow]
        have : (p.data.map lowerChar).all isDig = p.data.all isDig := by
          induction p.data with
          | nil => rfl
          | cons a l ih2 => simp [List.all_cons, isDig_lowerChar, ih2]
        simp [this, hnd]
  simp only [parseLocalVersion] at h
  cases htup : (splitSeps run).map (fun p =>
      if pyIsDigit p then LPart.num (natOfDigits p.data) else LPart.str (lowerStr p)) with
  | nil =>
    simp only [htup] at h
    cases h
  | cons q qs =>
    simp only [htup] at h
    by_cases hq : lpartTruthy q = true
    · rw [if_pos hq] at h
      injection h with h
      subst h
      refine ⟨?_, q, qs, rfl, hq⟩
      rw [List.all_eq_true]
      intro x hx
      exact hwf x (htup ▸ hx)
    · rw [if_neg hq] at h
      cases h

theorem except_bind_err {α β : Type} (e : PyErr) (f : α → Except PyErr β) :
    ((Except.error e : Except PyErr α) >>= f) = .error e := rfl

theorem intAll_ne_nil {a : String} {ss : List String} {ns : List Nat}
    (h : intAll (a :: ss) = .ok ns) : ns ≠ [] := by
  simp only [intAll] at h
  cases hpa : pyInt a with
  | error e =>
    rw [hpa, except_bind_err] at h
    cases h
  | ok n =>
    rw [hpa, except_bind_ok] at h
    cases hia : intAll ss with
    | error e =>
      rw [hia, except_bind_err] at h
      cases h
    | ok ms =>
      rw [hia, except_bind_ok] at h
      have h2 : Except.ok (n :: ms) = (Except.ok ns : Except PyErr (List Nat)) := h
      injection h2 with h2
      rw [← h2]
      simp

theorem parseLocalVersion_empty : parseLocalVersion "" = none := rfl

theorem parseLetter_pre_inv {l n : Option String} {r : Option (String × Nat)}
    (hshape : l = none ∧ n = none ∨
      ∃ m, l = some (String.mk m) ∧ (∃ t, t ∈ preTags ∧ m.map lowerChar = t.data) ∧
        (n = none ∨ ∃ ds, n = some (String.mk ds) ∧ ds ≠ [] ∧ ds.all isDig = true))
    (h : parseLetterVersion l n = .ok r) :
    r = none ∨ ∃ t n2, r = some (t, n2) ∧ (t = "a" ∨ t = "b" ∨ t = "rc") := by
  rcases hshape with ⟨rfl, rfl⟩ | ⟨m, rfl, ⟨t, ht, hmap⟩, hn⟩
  · left
    have h0 : parseLetterVersion none none =
        Except.ok (none : Option (String × Nat)) := rfl
    rw [h0] at h
    injection h with h
    exact h.symm
  · right
    have ht8 : t = "a" ∨ t = "b" ∨ t = "c" ∨ t = "rc" ∨ t = "alpha" ∨ t = "beta" ∨
        t = "pre" ∨ t = "preview" := by
      simpa [preTags] using ht
    have hmne : m ≠ [] := by
      intro h0
      rw [h0] at hmap
      rcases ht8 with rfl | rfl | rfl | rfl | rfl | rfl | rfl | rfl <;> simp at hmap
    have hmt : pyTruthyS (some (String.mk m)) = true := by
      simp only [pyTruthyS]
      rcases m with _ | ⟨a, ls⟩
      · exact absurd rfl hmne
      · rfl
    have hlow : lowerStr (String.mk m) = t := by
      show String.mk (m.map lowerChar) = t
      rw [hmap]
    have htag : normalizeTag t = "a" ∨ normalizeTag t = "b" ∨ normalizeTag t = "rc" := by
      rcases ht8 with rfl | rfl | rfl | rfl | rfl | rfl | rfl | rfl <;> decide
    rcases hn with rfl | ⟨ds, rfl, hdne, hdig⟩
    · have h0 : parseLetterVersion (some (String.mk m)) none =
          .ok (some (normalizeTag (lowerStr (String.mk m)), 0)) := by
        simp only [parseLetterVersion, hmt, Bool.not_true, Bool.false_and,
          Bool.false_eq_true, if_false, if_true, Option.getD_some]
      rw [h0] at h
      injection h with h
      exact ⟨normalizeTag (lowerStr (String.mk m)), 0, h.symm, by rw [hlow]; exact htag⟩
    · have hpy : pyInt (String.mk ds) = .ok (natOfDigits ds) := by
        simp only [pyInt]
        rw [if_pos ⟨by simpa using hdne, hdig⟩]
      have h0 : parseLetterVersion (some (String.mk m)) (some (String.mk ds)) =
          .ok (some (normalizeTag (lowerStr (String.mk m)), natOfDigits ds)) := by
        simp only [parseLetterVersion, hmt, Bool.not_true, Bool.false_and,
          Bool.false_eq_true, if_false, if_true, hpy, Option.getD_some]
      rw [h0] at h
      injection h with h
      exact ⟨normalizeTag (lowerStr (String.mk m)), natOfDigits ds, h.symm,
        by rw [hlow]; exact htag⟩

theorem parseLetter_post_inv {l n1 n2 : Option String} {r : Option (String × Nat)}
    (hshape : l = none ∧ n1 = none ∧ n2 = none ∨
      (l = none ∧ n2 = none ∧
        ∃ ds, n1 = some (String.mk ds) ∧ ds ≠ [] ∧ ds.all isDig = true) ∨
      (∃ m, l = some (String.mk m) ∧ n1 = none ∧
        (m.map lowerChar = ['p', 'o', 's', 't'] ∨ m.map lowerChar = ['r', 'e', 'v'] ∨
          m.map lowerChar = ['r']) ∧
        (n2 = none ∨ ∃ ds, n2 = some (String.mk ds) ∧ ds ≠ [] ∧ ds.all isDig = true)))
    (h : parseLetterVersion (some (l.getD "")) (some (n1.getD (n2.getD ""))) = .ok r) :
    r = none ∨ ∃ n0, r = some ("post", n0) := by
  rcases hshape with ⟨rfl, rfl, rfl⟩ | ⟨rfl, rfl, ds, rfl, hdne, hdig⟩ |
    ⟨m, rfl, rfl, hmap, hn2⟩
  · left
    simp only [Option.getD_none] at h
    have h0 : parseLetterVersion (some "") (some "") =
        Except.ok (none : Option (String × Nat)) := rfl
    rw [h0] at h
    injection h with h
    exact h.symm
  · right
    simp only [Option.getD_none, Option.getD_some] at h
    have hdt : pyTruthyS (some (String.mk ds)) = true := by
      simp only [pyTruthyS]
      rcases ds with _ | ⟨a, ls⟩
      · exact absurd rfl hdne
      · rfl
    have hpy : pyInt (String.mk ds) = .ok (natOfDigits ds) := by
      simp only [pyInt]
      rw [if_pos ⟨by simpa using hdne, hdig⟩]
    have hft : pyTruthyS (some "") = false := rfl
    have h0 : parseLetterVersion (some "") (some (String.mk ds)) =
        .ok (some ("post", natOfDigits ds)) := by
      simp only [parseLetterVersion, hft, hdt, Bool.not_true, Bool.not_false,
        Bool.true_and, Bool.false_eq_true, if_false, Option.getD_some, hpy]
    rw [h0] at h
    injection h with h
    exact ⟨natOfDigits ds, h.symm⟩
  · simp only [Option.getD_some, Option.getD_none] at h
    have hmne : m ≠ [] := by
      rcases hmap with hm | hm | hm <;> (intro h0; rw [h0] at hm; simp at hm)
    have hmt : pyTruthyS (some (String.mk m)) = true := by
      simp only [pyTruthyS]
      rcases m with _ | ⟨a, ls⟩
      · exact absurd rfl hmne
      · rfl
    have htag : normalizeTag (lowerStr (String.mk m)) = "post" := by
      have hls : lowerStr (String.mk m) = String.mk (m.map lowerChar) := rfl
      rcases hmap with hm | hm | hm <;> rw [hls, hm] <;> decide
    rcases hn2 with rfl | ⟨ds, rfl, hdne, hdig⟩
    · exfalso
      simp only [Option.getD_none] at h
      have h0 : parseLetterVersion (some (String.mk m)) (some "") =
          .error (.valueError "") := by
        simp only [parseLetterVersion, hmt, Bool.not_true, Bool.false_and,
          Bool.false_eq_true, if_false, if_true]
        rfl
      rw [h0] at h
      exact Except.noConfusion h
    · right
      simp only [Option.getD_some] at h
      have hpy : pyInt (String.mk ds) = .ok (natOfDigits ds) := by
        simp only [pyInt]
        rw [if_pos ⟨by simpa using hdne, hdig⟩]
      have h0 : parseLetterVersion (some (String.mk m)) (some (String.mk ds)) =
          .ok (some (normalizeTag (lowerStr (String.mk m)), natOfDigits ds)) := by
        simp only [parseLetterVersion, hmt, Bool.not_true, Bool.false_and,
          Bool.false_eq_true, if_false, if_true, hpy, Option.getD_some]
      rw [h0] at h
      injection h with h
      refine ⟨natOfDigits ds, ?_⟩
      rw [← h, htag]

theorem parseLetter_dev_inv {l n : Option String} {r : Option (String × Nat)}
    (hshape : l = none ∧ n = none ∨
      ∃ m, l = some (String.mk m) ∧ m.map lowerChar = ['d', 'e', 'v'] ∧
        (n = none ∨ ∃ ds, n = some (String.mk ds) ∧ ds ≠ [] ∧ ds.all isDig = true))
    (h : parseLetterVersion (some (l.getD "")) (some (n.getD "")) = .ok r) :
    r = none ∨ ∃ n0, r = some ("dev", n0) := by
  rcases hshape with ⟨rfl, rfl⟩ | ⟨m, rfl, hmap, hn⟩
  · left
    simp only [Option.getD_none] at h
    have h0 : parseLetterVersion (some "") (some "") =
        Except.ok (none : Option (String × Nat)) := rfl
    rw [h0] at h
    injection h with h
    exact h.symm
  · simp only [Option.getD_some, Option.getD_none] at h
    have hmne : m ≠ [] := by
      intro h0
      rw [h0] at hmap
      simp at hmap
    have hmt : pyTruthyS (some (String.mk m)) = true := by
      simp only [pyTruthyS]
      rcases m with _ | ⟨a, ls⟩
      · exact absurd rfl hmne
      · rfl
    have htag : normalizeTag (lowerStr (String.mk m)) = "dev" := by
      have hls : lowerStr (String.mk m) = String.mk (m.map lowerChar) := rfl
      rw [hls, hmap]
      decide
    rcases hn with rfl | ⟨ds, rfl, hdne, hdig⟩
    · exfalso
      simp only [Option.getD_none] at h
      have h0 : parseLetterVersion (some (String.mk m)) (some "") =
          .error (.valueError "") := by
        simp only [parseLetterVersion, hmt, Bool.not_true, Bool.false_and,
          Bool.false_eq_true, if_false, if_true]
        rfl
      rw [h0] at h
      exact Except.noConfusion h
    · right
      simp only [Option.getD_some] at h
      have hpy : pyInt (String.mk ds) = .ok (natOfDigits ds) := by
        simp only [pyInt]
        rw [if_pos ⟨by simpa using hdne, hdig⟩]
      have h0 : parseLetterVersion (some (String.mk m)) (some (String.mk ds)) =
          .ok (some (normalizeTag (lowerStr (String.mk m)), natOfDigits ds)) := by
        simp only [parseLetterVersion, hmt, Bool.not_true, Bool.false_and,
          Bool.false_eq_true, if_false, if_true, hpy, Option.getD_some]
      rw [h0] at h
      injection h with h
      refine ⟨natOfDigits ds, ?_⟩
      rw [← h, htag]

theorem versionInit_inv {g : Groups} {v : Version} (hg : GroupsP g)
    (h : versionInit g = .ok v) :
    segWF v.segments = true ∧ cmpkey v.segments = .ok v.key := by
  obtain ⟨hchunks, hchne, hpreGP⟩ := hg
  obtain ⟨hpreL, hpostGP⟩ := hpreGP
  obtain ⟨hpostL, hdevGP⟩ := hpostGP
  obtain ⟨hdevL, htailP⟩ := hdevGP
  simp only [versionInit] at h
  cases hep : epochInt g.epoch with
  | error e =>
    rw [hep, except_bind_err] at h
    cases h
  | ok epoch =>
  simp only [hep, except_bind_ok] at h
  cases hrel : intAll g.releaseChunks with
  | error e =>
    rw [hrel, except_bind_err] at h
    cases h
  | ok release =>
  simp only [hrel, except_bind_ok] at h
  cases hpre : parseLetterVersion g.preg.pre_l g.preg.pre_n with
  | error e =>
    rw [hpre, except_bind_err] at h
    cases h
  | ok pre =>
  simp only [hpre, except_bind_ok] at h
  cases hpost : parseLetterVersion (some (g.preg.postg.post_l.getD ""))
      (some (g.preg.postg.post_n1.getD (g.preg.postg.post_n2.getD ""))) with
  | error e =>
    rw [hpost, except_bind_err] at h
    cases h
  | ok post =>
  simp only [hpost, except_bind_ok] at h
  cases hdev : parseLetterVersion (some (g.preg.postg.devg.dev_l.getD ""))
      (some (g.preg.postg.devg.dev_n.getD "")) with
  | error e =>
    rw [hdev, except_bind_err] at h
    cases h
  | ok dev =>
  simp only [hdev, except_bind_ok] at h
  cases hkey : cmpkey ⟨epoch, release, pre, post, dev,
      parseLocalVersion (g.preg.postg.devg.tail.loc.getD "")⟩ with
  | error e =>
    rw [hkey, except_bind_err] at h
    cases h
  | ok key =>
  simp only [hkey, except_bind_ok] at h
  have h2 : Except.ok (Version.mk ⟨epoch, release, pre, post, dev,
      parseLocalVersion (g.preg.postg.devg.tail.loc.getD "")⟩ key) =
      (Except.ok v : Except PyErr Version) := h
  injection h2 with h2
  subst h2
  refine ⟨?_, hkey⟩
  have hpre2 := parseLetter_pre_inv hpreL hpre
  have hpost2 := parseLetter_post_inv hpostL hpost
  have hdev2 := parseLetter_dev_inv hdevL hdev
  have hrne : release ≠ [] := by
    cases hcs : g.releaseChunks with
    | nil => exact absurd hcs hchne
    | cons a ss =>
      rw [hcs] at hrel
      exact intAll_ne_nil hrel
  have hloc2 : parseLocalVersion (g.preg.postg.devg.tail.loc.getD "") = none ∨
      ∃ ps, parseLocalVersion (g.preg.postg.devg.tail.loc.getD "") = some ps ∧
        ps.all lpartWF = true ∧ ∃ q qs2, ps = q :: qs2 ∧ lpartTruthy q = true := by
    rcases htailP with hnone | ⟨run, hsome, hvrun⟩
    · rw [hnone, Option.getD_none]
      exact Or.inl parseLocalVersion_empty
    · rw [hsome, Option.getD_some]
      cases hpl : parseLocalVersion (String.mk run) with
      | none => exact Or.inl rfl
      | some ps =>
        obtain ⟨hall, hq⟩ := parseLocalVersion_inv hvrun hpl
        exact Or.inr ⟨ps, rfl, hall, hq⟩
  simp only [segWF, Bool.and_eq_true]
  refine ⟨⟨⟨⟨?_, ?_⟩, ?_⟩, ?_⟩, ?_⟩
  · cases release with
    | nil => exact absurd rfl hrne
    | cons a l => rfl
  · rcases hpre2 with rfl | ⟨t, n2, rfl, htg⟩
    · rfl
    · show (t == "a" || t == "b" || t == "rc") = true
      rcases htg with rfl | rfl | rfl <;> rfl
  · rcases hpost2 with rfl | ⟨n0, rfl⟩
    · rfl
    · rfl
  · rcases hdev2 with rfl | ⟨n0, rfl⟩
    · rfl
    · rfl
  · rcases hloc2 with hnone | ⟨ps, hsome, hall, q, qs2, rfl, hq⟩
    · simp only [hnone]
    · simp only [hsome]
      cases qs2 with
      | nil =>
        exfalso
        rw [hsome] at hkey
        have hix : cmpkey ⟨epoch, release, pre, post, dev, some [q]⟩ =
            .error .indexError := rfl
        rw [hix] at hkey
        exact Except.noConfusion hkey
      | cons q2 rest =>
        simp only [Bool.and_eq_true]
        refine ⟨⟨?_, hall⟩, hq⟩
        simp only [List.length_cons, decide_eq_true_eq]
        omega

theorem parse_WF {s0 : String} {v : Version} (h : parse s0 = .ok v) :
    segWF v.segments = true ∧ cmpkey v.segments = .ok v.key := by
  simp only [parse] at h
  cases hm : regexMatch s0.data with
  | none =>
    rw [hm] at h
    cases h
  | some g =>
    rw [hm] at h
    exact versionInit_inv (regexMatch_inv hm) h

/- ------------------------------------------------------------------
Claim theorems.
------------------------------------------------------------------- -/

/-- C1, counterexample. The claimed chain parse("1.0.dev0") < parse("1.0a1")
fails on the code: the dev release of 1.0 compares strictly greater than
the pre-release 1.0a1, because an absent pre maps to +inf and _cmpkey has
no special case for dev-only versions. -/
theorem devBeforePre_cex :
    parseCmpLt "1.0.dev0" "1.0a1" = .ok false ∧
      parseCmpGt "1.0.dev0" "1.0a1" = .ok true :=
  ⟨rfl, rfl⟩

/-- C1, amended. For the fixed release 1.0 the comparator orders the parsed
versions as the strict chain 1.0a1 < 1.0a1.post1 < 1.0.dev0 < 1.0 <
1.0.post1: the dev release sorts after every pre-release of the same
release (not before it, as claimed) but still before the final release. -/
theorem chainOrder_amended :
    parseCmpLt "1.0a1" "1.0a1.post1" = .ok true ∧
      parseCmpLt "1.0a1.post1" "1.0.dev0" = .ok true ∧
      parseCmpLt "1.0.dev0" "1.0" = .ok true ∧
      parseCmpLt "1.0" "1.0.post1" = .ok true :=
  ⟨rfl, rfl, rfl, rfl⟩

/-- C2, counterexample. parse("1.0") and parse("1.0.0") do not compare
equal: the release tuples (1, 0) and (1, 0, 0) are compared by Python
tuple comparison without zero padding, so the shorter one is strictly
smaller. -/
theorem trailingZeroEq_cex : parseCmpEq "1.0" "1.0.0" = .ok false :=
  rfl

/-- C2, amended. Release sequences compare element by element; missing
trailing elements are NOT treated as 0: when one release is a strict
prefix of the other, the shorter version is strictly smaller whatever the
other segments are, and in particular parse("1.0") < parse("1.0.0")
rather than equal. -/
theorem releaseLex_amended :
    (∀ (e : Nat) (rs : List Nat) (x : Nat) (ext : List Nat) (p q d : Rank)
      (l : LocalRank) (p' q' d' : Rank) (l' : LocalRank),
      keyCmp ⟨e, rs, p, q, d, l⟩ ⟨e, rs ++ x :: ext, p', q', d', l'⟩ = .ok .lt) ∧
      parseCmpLt "1.0" "1.0.0" = .ok true ∧
      parseCmpEq "1.0" "1.0.0" = .ok false := by
  refine ⟨fun e rs x ext p q d l p' q' d' l' => ?_, rfl, rfl⟩
  simp [keyCmp, pureChain, cmpNat_self, cmpListNat_self_append, ordThen]

/-- C3, code bug. parse is not total with InvalidVersionFormat as the only
failure: the grammar-matching inputs "1.0.dev" and "1.0+abc" raise
ValueError (int on the empty string) and IndexError (local[1] on a
one-element tuple) respectively, while only non-matching inputs such as
"not##" raise InvalidVersion. -/
theorem parseErrorKinds_bug :
    parse "1.0.dev" = .error (.valueError "") ∧
      parse "1.0+abc" = .error .indexError ∧
      parse "not##" = .error (.invalidVersion "not##") :=
  ⟨rfl, rfl, rfl⟩

/-- C4, code bug. The tag-present-number-absent default of 0 works only for
the pre segment (parse("1.0a") has pre ("a", 0)); for the post and dev
segments the call sites pass the empty string instead of None, so
parse("1.0.post") and parse("1.0.dev") raise ValueError from int("")
instead of defaulting to 0. -/
theorem optionalNumberDefault_bug :
    (parse "1.0a").map (fun v => v.segments.pre) = .ok (some ("a", 0)) ∧
      parse "1.0.post" = .error (.valueError "") ∧
      parse "1.0.dev" = .error (.valueError "") :=
  ⟨rfl, rfl, rfl⟩

/-- C5, code bug. parse("1.0+abc") does not succeed: _cmpkey evaluates
local[1] on the one-element local tuple ("abc",) and raises IndexError.
For a two-element local whose second part is a number the claimed
sentinel direction does hold: parse("1.0") > parse("1.0+abc.1"). -/
theorem localSingleton_bug :
    parse "1.0+abc" = .error .indexError ∧
      (parse "1.0+abc.1").toOption.isSome = true ∧
      parseCmpGt "1.0" "1.0+abc.1" = .ok true :=
  ⟨rfl, rfl, rfl⟩

/-- C6, confirmed. Canonicalization is idempotent: whenever parse succeeds
on a raw string, re-parsing the canonical rendering (__str__) of the
resulting Version reproduces that Version exactly — identical Segments
(epoch, release, pre, post, dev, local) and identical key. -/
theorem render_roundtrip (s0 : String) (v : Version) (h : parse s0 = .ok v) :
    parse (render v) = .ok v := by
  obtain ⟨hwf, hck⟩ := parse_WF h
  show parse ⟨renderChars v.segments⟩ = .ok v
  simp only [parse]
  rw [regexMatch_render hwf]
  exact versionInit_groupsOf hwf hck

/-- C6, witness at the concrete input "1.0a1", whose rendered canonical
form "1.0a1" re-parses to the same Version. -/
theorem render_roundtrip_wit : parse (render v10a1) = .ok v10a1 :=
  render_roundtrip "1.0a1" v10a1 (by rfl)

/-- C7, confirmed. Synonym spellings are normalized before comparison:
parse("1.0alpha1") == parse("1.0a1"), parse("1.0c1") == parse("1.0rc1"),
and parse("1.0rev1") == parse("1.0post1") == parse("1.0-1"), the bare
numeric suffix being an implicit post release. -/
theorem synonym_equiv :
    parseCmpEq "1.0alpha1" "1.0a1" = .ok true ∧
      parseCmpEq "1.0c1" "1.0rc1" = .ok true ∧
      parseCmpEq "1.0rev1" "1.0post1" = .ok true ∧
      parseCmpEq "1.0post1" "1.0-1" = .ok true ∧
      parseCmpEq "1.0rev1" "1.0-1" = .ok true :=
  ⟨rfl, rfl, rfl, rfl, rfl⟩

/-- C8, counterexample. The order is not total on all parsed Versions: both
"1.0+a.b" and "1.0+a.1" parse, but comparing them (or "1.0+a.b" against
"1.0") raises TypeError, because the local slot holds a str on one side
and an int or float inf on the other. -/
theorem ordTotal_cex :
    parseCmpLt "1.0+a.b" "1.0+a.1" = .error .typeError ∧
      parseCmpLt "1.0+a.b" "1.0" = .error .typeError ∧
      (parse "1.0+a.b").toOption.isSome = true ∧
      (parse "1.0+a.1").toOption.isSome = true :=
  ⟨rfl, rfl, rfl, rfl⟩

/-- C8, amended. On Versions whose local rank is a number or absent (no
str-valued local[1]), the comparator is a strict total order: asymmetric,
transitive, and every two Versions are comparable with exactly one of
<, ==, > holding; comparisons involving a str-valued local rank against a
numeric one raise TypeError instead (see the counterexample). -/
theorem ordTotal_amended (v1 v2 v3 : Version)
    (n1 : numericLocal v1.key = true) (n2 : numericLocal v2.key = true)
    (n3 : numericLocal v3.key = true) :
    (vlt v1 v2 = .ok true → vlt v2 v1 = .ok false) ∧
      (vlt v1 v2 = .ok true → vlt v2 v3 = .ok true → vlt v1 v3 = .ok true) ∧
      ((vlt v1 v2 = .ok true ∧ veq v1 v2 = false ∧ vgt v1 v2 = .ok false) ∨
        (vlt v1 v2 = .ok false ∧ veq v1 v2 = true ∧ vgt v1 v2 = .ok false) ∨
        (vlt v1 v2 = .ok false ∧ veq v1 v2 = false ∧ vgt v1 v2 = .ok true)) := by
  have l12 : vlt v1 v2 = .ok (keyCmpT v1.key v2.key == Ordering.lt) := by
    unfold vlt
    rw [keyCmp_ok_of_numeric n1 n2]
    rfl
  have l21 : vlt v2 v1 = .ok (keyCmpT v2.key v1.key == Ordering.lt) := by
    unfold vlt
    rw [keyCmp_ok_of_numeric n2 n1]
    rfl
  have l23 : vlt v2 v3 = .ok (keyCmpT v2.key v3.key == Ordering.lt) := by
    unfold vlt
    rw [keyCmp_ok_of_numeric n2 n3]
    rfl
  have l13 : vlt v1 v3 = .ok (keyCmpT v1.key v3.key == Ordering.lt) := by
    unfold vlt
    rw [keyCmp_ok_of_numeric n1 n3]
    rfl
  have g12 : vgt v1 v2 = .ok (keyCmpT v1.key v2.key == Ordering.gt) := by
    unfold vgt
    rw [keyCmp_ok_of_numeric n1 n2]
    rfl
  refine ⟨?_, ?_, ?_⟩
  · intro h
    rw [l12] at h
    have hlt : keyCmpT v1.key v2.key = .lt := ordering_beq_lt (Except.ok.inj h)
    rw [l21, keyCmpT_swap n1 n2, hlt]
    rfl
  · intro h1 h2
    rw [l12] at h1
    rw [l23] at h2
    have hlt1 : keyCmpT v1.key v2.key = .lt := ordering_beq_lt (Except.ok.inj h1)
    have hlt2 : keyCmpT v2.key v3.key = .lt := ordering_beq_lt (Except.ok.inj h2)
    rw [l13, keyCmpT_lt_trans n1 n2 n3 hlt1 hlt2]
    rfl
  · rcases h : keyCmpT v1.key v2.key with _ | _ | _
    · refine Or.inl ⟨by rw [l12, h]; rfl, ?_, by rw [g12, h]; rfl⟩
      have hne : ¬v1.key = v2.key := by
        intro hEq
        rw [hEq, keyCmpT_self] at h
        cases h
      simp [veq, keyEq, hne]
    · have hk : v1.key = v2.key := keyCmpT_eq_imp n1 n2 h
      refine Or.inr (Or.inl ⟨by rw [l12, h]; rfl, ?_, by rw [g12, h]; rfl⟩)
      simp [veq, keyEq, hk]
    · refine Or.inr (Or.inr ⟨by rw [l12, h]; rfl, ?_, by rw [g12, h]; rfl⟩)
      have hne : ¬v1.key = v2.key := by
        intro hEq
        rw [hEq, keyCmpT_self] at h
        cases h
      simp [veq, keyEq, hne]

/-- C8, witness for the amended theorem at the concrete versions 1.0, 1.1
and 1.2. -/
theorem ordTotal_amended_witness :
    (vlt v10 v11 = .ok true → vlt v11 v10 = .ok false) ∧
      (vlt v10 v11 = .ok true → vlt v11 v12 = .ok true → vlt v10 v12 = .ok true) ∧
      ((vlt v10 v11 = .ok true ∧ veq v10 v11 = false ∧ vgt v10 v11 = .ok false) ∨
        (vlt v10 v11 = .ok false ∧ veq v10 v11 = true ∧ vgt v10 v11 = .ok false) ∨
        (vlt v10 v11 = .ok false ∧ veq v10 v11 = false ∧ vgt v10 v11 = .ok true)) :=
  ordTotal_amended v10 v11 v12 rfl rfl rfl

/-- C9, counterexample. One unparsable candidate does not leave the other
candidates in play: with candidates ["2.0.0", "#bad#"] and current
version 1.0.0 the whole check returns None, although the same check with
the parseable candidate alone reports the 2.0.0 upgrade. -/
theorem dropCandidate_cex :
    evaluate "1.0.0" ["2.0.0", "#bad#"] = none ∧
      evaluate "1.0.0" ["2.0.0"] = some ("2.0.0", true) :=
  ⟨rfl, rfl⟩

/-- C9, amended. Candidates are parsed together in one comprehension inside
the catch-all try block, so a single candidate that fails to parse aborts
the entire check and evaluate returns None, discarding the parseable
candidates as well. -/
theorem abortOnUnparsable_amended (cur : String) (cands : List String)
    (c : String) (e : PyErr) (hmem : c ∈ cands) (herr : parse c = .error e) :
    evaluate cur cands = none :=
  evaluate_eq_none_of_parseAll_error (parseAll_error hmem herr)

/-- C9, witness for the amended theorem at the concrete counterexample
input. -/
theorem abortOnUnparsable_witness :
    evaluate "1.0.0" ["2.0.0", "#bad#"] = none :=
  abortOnUnparsable_amended "1.0.0" ["2.0.0", "#bad#"] "#bad#"
    (.invalidVersion "#bad#") (by simp) rfl

/-- C10, confirmed. The pre-release tag never influences ordering: _cmpkey
keeps only the pre number, so versions identical except for the pre tag
have literally equal keys (hence equal hashes, the hash being a function
of the key alone), compare equal under ==, and still render different
canonical strings. -/
theorem preTagIgnored :
    (∀ (e : Nat) (r : List Nat) (t1 t2 : String) (n : Nat)
      (po de : Option (String × Nat)) (lo : Option (List LPart)),
      cmpkey ⟨e, r, some (t1, n), po, de, lo⟩ =
        cmpkey ⟨e, r, some (t2, n), po, de, lo⟩) ∧
      (parse "1.0a1").map Version.key = (parse "1.0b1").map Version.key ∧
      (parse "1.0b1").map Version.key = (parse "1.0rc1").map Version.key ∧
      parseCmpEq "1.0a1" "1.0b1" = .ok true ∧
      parseCmpEq "1.0b1" "1.0rc1" = .ok true ∧
      (parse "1.0a1").map render ≠ (parse "1.0b1").map render ∧
      (parse "1.0b1").map render ≠ (parse "1.0rc1").map render :=
  ⟨fun _ _ _ _ _ _ _ _ => rfl, rfl, rfl, rfl, rfl, by decide, by decide⟩

end Trains
